import Mathlib

/-!
# Scope id allocation (proton dialect): embedding and verification

Shallow embedding of
`third_party/proton/Dialect/lib/Analysis/ScopeIdAllocation.cpp`.

* The hash maps of the source (`llvm::StringMap`, `DenseMap`) are finite maps
  kept as association lists with one entry per key; a new key is appended, so
  the list order is the insertion order.
* `ScopeId` is `size_t`; an id never exceeds the number of operations held in
  memory, so ids are natural numbers here.
* An operation (`Operation *`) is identified by its value: two `RecordOp`
  values are the same operation exactly when they are equal.
-/

/-! ## Finite maps -/

/-- Finite map with one entry per key, as an association list. -/
abbrev Map (κ : Type) (ν : Type) := List (κ × ν)

namespace Map

variable {κ ν : Type} [DecidableEq κ]

/-- The value stored for `k`, if any (`find`). -/
def lookup : Map κ ν → κ → Option ν
  | [], _ => none
  | (k', v) :: rest, k => if k' = k then some v else lookup rest k

/-- Membership test of the source (`contains`). -/
def contains (m : Map κ ν) (k : κ) : Bool := (lookup m k).isSome

/-- Assignment through `operator[]`: `m[k] = v`. -/
def set : Map κ ν → κ → ν → Map κ ν
  | [], k, v => [(k, v)]
  | (k', v') :: rest, k, v =>
    if k' = k then (k, v) :: rest else (k', v') :: set rest k v

/-- Removal of a key (`erase`). -/
def erase : Map κ ν → κ → Map κ ν
  | [], _ => []
  | (k', v') :: rest, k => if k' = k then erase rest k else (k', v') :: erase rest k

/-- Number of entries (`size`). -/
def size (m : Map κ ν) : Nat := m.length

/-- The keys, in list order. -/
def keys (m : Map κ ν) : List κ := m.map Prod.fst

/-- Insertion that keeps an existing entry (`try_emplace`). -/
def tryEmplace (m : Map κ ν) (k : κ) (v : ν) : Map κ ν :=
  if contains m k then m else m ++ [(k, v)]

/-- Lookup with the value type's default for an absent key (`DenseMap::lookup`,
and a read through `operator[]` of a key that is present). -/
def lookupD [Inhabited ν] (m : Map κ ν) (k : κ) : ν := (lookup m k).getD default

/-- Modelled from the spec: the container types of the members `funcScopeIdMap`,
`scopeIdNames` and `scopeIdParents` are declared in the header, which is not
part of the sources at hand, so the order in which a range-based `for` visits
their entries is not given by the code. The spec has the module list built "in
traversal order": the entries are visited in the order of their insertion. -/
abbrev entries (m : Map κ ν) : List (κ × ν) := m

end Map

/-! ## Operations -/

/-- A `proton.record` operation: its location, scope name and start flag. -/
structure RecordOp where
  loc : Nat
  name : String
  isStart : Bool
deriving DecidableEq, Repr

/-- A function operation: its location and the `RecordOp`s that the pre-order
walk of its body visits, in visiting order. -/
structure FuncOp where
  loc : Nat
  recordOps : List RecordOp
deriving DecidableEq, Repr

/-- Errors handed to `mlir::emitError`, with the operation whose location
anchors them. -/
inductive Diagnostic where
  | alreadyOpen (anchor : RecordOp) (name : String)
  | notOpened (anchor : RecordOp) (name : String)
  | neverClosed (anchor : FuncOp) (name : String)
deriving DecidableEq, Repr

/-- The record operation a diagnostic is anchored at, if it is anchored at one. -/
def Diagnostic.recordAnchor : Diagnostic → Option RecordOp
  | .alreadyOpen a _ => some a
  | .notOpened a _ => some a
  | .neverClosed _ _ => none

/-! ## Per-function allocation -/

/-- State of `ScopeIdAllocation::run`: the locals `nameToIdMap`, `activeScopes`
and `id`, the members `idToNameMap` and `opToIdMap`, and the diagnostics
emitted so far. -/
structure ScopeIdAllocation where
  nameToIdMap : Map String Nat
  activeScopes : Map String Nat
  id : Nat
  idToNameMap : Map Nat String
  opToIdMap : Map RecordOp Nat
  diagnostics : List Diagnostic
deriving DecidableEq, Repr

namespace ScopeIdAllocation

/-- State at entry of `run`; also the default-constructed allocation. -/
def empty : ScopeIdAllocation :=
  ⟨[], [], 0, [], [], []⟩

instance : Inhabited ScopeIdAllocation := ⟨empty⟩

/-- Lines 23-28: give `name` the next id unless it already has one. -/
def assign (s : ScopeIdAllocation) (name : String) : ScopeIdAllocation :=
  if !Map.contains s.nameToIdMap name then
    { s with
      nameToIdMap := Map.set s.nameToIdMap name s.id
      idToNameMap := Map.set s.idToNameMap s.id name
      id := s.id + 1 }
  else s

/-- Body of the walk callback (lines 16-40) for one `RecordOp`. -/
def visit (s : ScopeIdAllocation) (recordOp : RecordOp) : ScopeIdAllocation :=
  let name := recordOp.name
  if recordOp.isStart then
    if Map.contains s.activeScopes name then
      { s with diagnostics := s.diagnostics ++ [Diagnostic.alreadyOpen recordOp name] }
    else
      let s1 := assign s name
      { s1 with
        opToIdMap := Map.set s1.opToIdMap recordOp (Map.lookupD s1.nameToIdMap name)
        activeScopes := Map.set s1.activeScopes name (Map.lookupD s1.nameToIdMap name) }
  else
    if Map.contains s.activeScopes name then
      { s with
        opToIdMap := Map.set s.opToIdMap recordOp (Map.lookupD s.activeScopes name)
        activeScopes := Map.erase s.activeScopes name }
    else
      { s with diagnostics := s.diagnostics ++ [Diagnostic.notOpened recordOp name] }

/-- The walk of lines 15-41 over the function's record operations. -/
def scan (funcOp : FuncOp) : ScopeIdAllocation :=
  funcOp.recordOps.foldl visit empty

/-- Lines 43-48: one error at the function for every scope still active. -/
def unclosed (funcOp : FuncOp) (s : ScopeIdAllocation) : List Diagnostic :=
  if Map.size s.activeScopes > 0 then
    s.activeScopes.map (fun p => Diagnostic.neverClosed funcOp p.1)
  else []

/-- The whole of `ScopeIdAllocation::run` (lines 10-50). -/
def run (funcOp : FuncOp) : ScopeIdAllocation :=
  let s := scan funcOp
  { s with diagnostics := s.diagnostics ++ unclosed funcOp s }

/-- Modelled from the spec: the accessor `getNumScopes` is declared in the
header, which is not part of the sources at hand. "`numScopes`: count of
distinct names = size of `nameToId`." -/
def getNumScopes (s : ScopeIdAllocation) : Nat := Map.size s.nameToIdMap

/-- Modelled from the spec: the accessor `getScopeIdNames` is declared in the
header, which is not part of the sources at hand. It is the function's
"per-function `(id, name)` list", the entries of `idToName`. -/
def getScopeIdNames (s : ScopeIdAllocation) : List (Nat × String) := s.idToNameMap

/-- Modelled from the spec: the accessor `getOpScopeId` is declared in the
header, which is not part of the sources at hand. It is the "per-function id"
of an instruction, its entry in `instrToId`; the spec leaves the result for an
instruction that was not recorded undefined, here it is the map's default. -/
def getOpScopeId (s : ScopeIdAllocation) (op : RecordOp) : Nat := Map.lookupD s.opToIdMap op

end ScopeIdAllocation

/-! ## Module-level allocation -/

/-- The members of `ModuleScopeIdAllocation` (with `funcMap` of its base
`CallGraph`) and the local counter `funcScopeId` of its constructor. -/
structure ModuleScopeIdAllocation where
  funcMap : Map FuncOp ScopeIdAllocation
  funcScopeIdMap : Map FuncOp Nat
  funcScopeId : Nat
  scopeIdNames : Map FuncOp (List (Nat × String))
  scopeIdParents : Map FuncOp (List (Nat × Nat))
deriving DecidableEq, Repr

namespace ModuleScopeIdAllocation

/-- State at entry of the constructor body. -/
def empty : ModuleScopeIdAllocation :=
  ⟨[], [], 0, [], []⟩

/-- The post-order node callback (lines 59-66). -/
def nodeCallback (m : ModuleScopeIdAllocation) (funcOp : FuncOp) : ModuleScopeIdAllocation :=
  if Map.contains m.funcMap funcOp then m
  else
    let funcMap := Map.tryEmplace m.funcMap funcOp (ScopeIdAllocation.run funcOp)
    { m with
      funcMap := funcMap
      funcScopeIdMap := Map.set m.funcScopeIdMap funcOp m.funcScopeId
      funcScopeId := m.funcScopeId + (Map.lookupD funcMap funcOp).getNumScopes }

/-- One round of the loop of lines 68-76. -/
def precompute (m : ModuleScopeIdAllocation) (entry : FuncOp × Nat) : ModuleScopeIdAllocation :=
  let names := (Map.lookupD m.funcMap entry.1).getScopeIdNames
  let names := names.map (fun p => (p.1 + entry.2, p.2))
  { m with
    scopeIdNames := Map.set m.scopeIdNames entry.1 names
    scopeIdParents := Map.set m.scopeIdParents entry.1 [] }

/-- The constructor (lines 52-77); `visits` is the sequence of functions the
call graph walk hands to the node callback. -/
def construct (visits : List FuncOp) : ModuleScopeIdAllocation :=
  let m := visits.foldl nodeCallback empty
  (Map.entries m.funcScopeIdMap).foldl precompute m

/-- `getOpScopeId` (lines 79-84); `getParentOfType` yields the function
enclosing an operation. -/
def getOpScopeId (m : ModuleScopeIdAllocation) (getParentOfType : RecordOp → FuncOp)
    (op : RecordOp) : Nat :=
  let funcOp := getParentOfType op
  let funcOffset := Map.lookupD m.funcScopeIdMap funcOp
  (Map.lookupD m.funcMap funcOp).getOpScopeId op + funcOffset

/-- `getScopeIdNames(funcOp)` (lines 86-89). -/
def getScopeIdNamesOf (m : ModuleScopeIdAllocation) (funcOp : FuncOp) : List (Nat × String) :=
  Map.lookupD m.scopeIdNames funcOp

/-- `getScopeIdNames()` (lines 91-97). -/
def getScopeIdNames (m : ModuleScopeIdAllocation) : List (Nat × String) :=
  (Map.entries m.scopeIdNames).foldl (fun combined entry => combined ++ entry.2) []

/-- `getScopeIdParents(funcOp)` (lines 99-102). -/
def getScopeIdParentsOf (m : ModuleScopeIdAllocation) (funcOp : FuncOp) : List (Nat × Nat) :=
  Map.lookupD m.scopeIdParents funcOp

/-- `getScopeIdParents()` (lines 104-110). -/
def getScopeIdParents (m : ModuleScopeIdAllocation) : List (Nat × Nat) :=
  (Map.entries m.scopeIdParents).foldl (fun combined entry => combined ++ entry.2) []

end ModuleScopeIdAllocation

/-! ## Notions used to state the properties -/

namespace ScopeIdAllocation

/-- What every state reached by the scan satisfies. -/
structure Inv (s : ScopeIdAllocation) : Prop where
  keysNodup : (Map.keys s.nameToIdMap).Nodup
  ids : s.nameToIdMap.map Prod.snd = List.range s.id
  inverse : s.idToNameMap = s.nameToIdMap.map Prod.swap
  active : ∀ N i, Map.lookup s.activeScopes N = some i → Map.lookup s.nameToIdMap N = some i
  recorded : ∀ op i, Map.lookup s.opToIdMap op = some i →
    Map.lookup s.nameToIdMap op.name = some i

/-- The scope names of the start markers of a walk, in visiting order. -/
def startNames (l : List RecordOp) : List String :=
  (l.filter (fun op => op.isStart)).map (fun op => op.name)

/-- The two defects the walk callback tests for: a start marker whose name is
active, or an end marker whose name is not. -/
def rejects (s : ScopeIdAllocation) (op : RecordOp) : Bool :=
  (op.isStart && Map.contains s.activeScopes op.name) ||
    (!op.isStart && !Map.contains s.activeScopes op.name)

/-- The diagnostic of the walk callback for `op`. -/
def defectOf (op : RecordOp) : Diagnostic :=
  if op.isStart then Diagnostic.alreadyOpen op op.name else Diagnostic.notOpened op op.name

/-- The walk that opens and closes one scope after the other: for each triple
of a scope name and two locations, a start marker at the first location and an
end marker at the second. -/
def cycles : List (String × Nat × Nat) → List RecordOp
  | [] => []
  | (N, a, b) :: rest => ⟨a, N, true⟩ :: ⟨b, N, false⟩ :: cycles rest

/-- The start flags of the markers of a walk that carry the name `N`, in
visiting order. -/
def flagsOf (N : String) (l : List RecordOp) : List Bool :=
  (l.filter (fun op => decide (op.name = N))).map (fun op => op.isStart)

/-- A sequence of start flags that reads start, end, start, end, ...: it
begins with a start and finishes with an end (or is empty). -/
def alternating : List Bool → Bool
  | [] => true
  | true :: false :: rest => alternating rest
  | _ => false

/-- Whether one name is open after a sequence of its markers, given whether it
was open before; `none` once a start meets the open name or an end meets the
closed name. -/
def track : Bool → List Bool → Option Bool
  | o, [] => some o
  | o, true :: rest => if o then none else track true rest
  | o, false :: rest => if o then track false rest else none

/-- No marker of the walk is rejected on the way from state `s`. -/
def clean : ScopeIdAllocation → List RecordOp → Bool
  | _, [] => true
  | s, op :: rest => !rejects s op && clean (visit s op) rest

/-- The markers of the walk `l` that carry the name `N` and that the state `s`
has recorded in the instruction-to-id map, in visiting order. -/
def recordedOf (s : ScopeIdAllocation) (N : String) (l : List RecordOp) : List RecordOp :=
  l.filter (fun op => Map.contains s.opToIdMap op && decide (op.name = N))

/-- The diagnostics anchored at the record operation `op`. -/
def anchoredAt (op : RecordOp) (ds : List Diagnostic) : List Diagnostic :=
  ds.filter (fun d => decide (d.recordAnchor = some op))

/-- The diagnostics anchored at some record operation. -/
def atRecordOps (ds : List Diagnostic) : List Diagnostic :=
  ds.filter (fun d => d.recordAnchor.isSome)

end ScopeIdAllocation

namespace ModuleScopeIdAllocation

/-- The `numScopes(f)` of the properties: the number of scopes of the
per-function allocation of `f`. -/
def numScopes (f : FuncOp) : Nat := (ScopeIdAllocation.run f).getNumScopes

/-- The `offset(f)` of the properties: the offset stored for `f`, read the way
line 82 reads it. -/
def offset (m : ModuleScopeIdAllocation) (f : FuncOp) : Nat := Map.lookupD m.funcScopeIdMap f

/-- A per-function `(id, name)` list with `offset` added to every id. -/
def shifted (names : List (Nat × String)) (offset : Nat) : List (Nat × String) :=
  names.map (fun p => (p.1 + offset, p.2))

/-- Functions paired with running offsets: each function gets the running
total, which then grows by the function's number of scopes. -/
def withOffsets : Nat → List FuncOp → List (FuncOp × Nat)
  | _, [] => []
  | o, f :: fs => (f, o) :: withOffsets (o + numScopes f) fs

/-- The visits of a walk that are not repeats: a function is kept where it is
visited for the first time and dropped where it is in `seen` already. -/
def firstVisitsFrom : List FuncOp → List FuncOp → List FuncOp
  | _, [] => []
  | seen, f :: rest =>
    if f ∈ seen then firstVisitsFrom seen rest else f :: firstVisitsFrom (seen ++ [f]) rest

/-- The walk with every repeated visit removed. -/
def firstVisits (visits : List FuncOp) : List FuncOp := firstVisitsFrom [] visits

/-- What every state reached by the node callback satisfies. -/
structure WalkInv (m : ModuleScopeIdAllocation) : Prop where
  keysNodup : (Map.keys m.funcScopeIdMap).Nodup
  memo : m.funcMap = (Map.keys m.funcScopeIdMap).map (fun f => (f, ScopeIdAllocation.run f))
  offsets : m.funcScopeIdMap = withOffsets 0 (Map.keys m.funcScopeIdMap)
  counter : m.funcScopeId = ((Map.keys m.funcScopeIdMap).map numScopes).sum
  names : m.scopeIdNames = []

end ModuleScopeIdAllocation

/-! ## Lemmas on finite maps -/

namespace Map

variable {κ ν : Type} [DecidableEq κ]

theorem lookup_eq_none_iff (m : Map κ ν) (k : κ) : lookup m k = none ↔ k ∉ keys m := by
  induction m with
  | nil => simp [lookup, keys]
  | cons p rest ih =>
    obtain ⟨k', v⟩ := p
    by_cases h : k' = k
    · simp [lookup, keys, h]
    · have h' : ¬ k = k' := fun e => h e.symm
      simpa [lookup, keys, h, h'] using ih

theorem mem_of_lookup {m : Map κ ν} {k : κ} {v : ν} (h : lookup m k = some v) : (k, v) ∈ m := by
  induction m with
  | nil => simp [lookup] at h
  | cons p rest ih =>
    obtain ⟨k', v'⟩ := p
    by_cases hk : k' = k
    · simp [lookup, hk] at h
      simp [hk, h]
    · simp [lookup, hk] at h
      exact List.mem_cons_of_mem _ (ih h)

theorem lookup_of_mem {m : Map κ ν} {k : κ} {v : ν} (hn : (keys m).Nodup) (h : (k, v) ∈ m) :
    lookup m k = some v := by
  induction m with
  | nil => simp at h
  | cons p rest ih =>
    obtain ⟨k', v'⟩ := p
    simp only [keys, List.map_cons, List.nodup_cons] at hn
    rcases List.mem_cons.1 h with e | e
    · cases e
      simp [lookup]
    · have hk : k' ≠ k := by
        rintro rfl
        exact hn.1 (List.mem_map_of_mem Prod.fst e)
      simp only [lookup, hk, if_false]
      exact ih hn.2 e

theorem lookup_append_left {m : Map κ ν} {k : κ} {v : ν} (n : Map κ ν) (h : lookup m k = some v) :
    lookup (m ++ n) k = some v := by
  induction m with
  | nil => simp [lookup] at h
  | cons p rest ih =>
    obtain ⟨k', v'⟩ := p
    by_cases hk : k' = k
    · simpa [lookup, hk] using h
    · simp only [lookup, hk, if_false] at h
      simpa [lookup, hk] using ih h

theorem lookup_append_right {m : Map κ ν} {k : κ} (n : Map κ ν) (h : lookup m k = none) :
    lookup (m ++ n) k = lookup n k := by
  induction m with
  | nil => rfl
  | cons p rest ih =>
    obtain ⟨k', v'⟩ := p
    by_cases hk : k' = k
    · simp [lookup, hk] at h
    · simp only [lookup, hk, if_false] at h
      simpa [lookup, hk] using ih h

theorem set_eq_append {m : Map κ ν} {k : κ} (v : ν) (h : lookup m k = none) :
    set m k v = m ++ [(k, v)] := by
  induction m with
  | nil => rfl
  | cons p rest ih =>
    obtain ⟨k', v'⟩ := p
    by_cases hk : k' = k
    · simp [lookup, hk] at h
    · simp only [lookup, hk, if_false] at h
      simp [set, hk, ih h]

theorem lookup_set (m : Map κ ν) (k k' : κ) (v : ν) :
    lookup (set m k v) k' = if k = k' then some v else lookup m k' := by
  induction m with
  | nil => simp [set, lookup]
  | cons p rest ih =>
    obtain ⟨k1, v1⟩ := p
    by_cases hk : k1 = k
    · subst hk
      by_cases h2 : k1 = k' <;> simp [set, lookup, h2]
    · by_cases h2 : k1 = k'
      · subst h2
        have : ¬ k = k1 := fun e => hk e.symm
        simp [set, lookup, hk, this]
      · simp [set, lookup, hk, h2, ih]

theorem lookup_erase (m : Map κ ν) (k k' : κ) :
    lookup (erase m k) k' = if k = k' then none else lookup m k' := by
  induction m with
  | nil => simp [erase, lookup]
  | cons p rest ih =>
    obtain ⟨k1, v1⟩ := p
    by_cases hk : k1 = k
    · subst hk
      by_cases h2 : k1 = k'
      · subst h2
        simpa [erase] using ih
      · simpa [erase, lookup, h2] using ih
    · by_cases h2 : k1 = k'
      · subst h2
        have : ¬ k = k1 := fun e => hk e.symm
        simp [erase, lookup, hk, this]
      · simp [erase, lookup, hk, h2, ih]

theorem contains_eq_false_iff (m : Map κ ν) (k : κ) : contains m k = false ↔ lookup m k = none := by
  simp [contains]

theorem contains_eq_true_iff (m : Map κ ν) (k : κ) :
    contains m k = true ↔ ∃ v, lookup m k = some v := by
  simp [contains, Option.isSome_iff_exists]

end Map

/-! ## Invariant of the per-function scan -/

namespace ScopeIdAllocation

theorem inv_empty : Inv empty :=
  ⟨by simp [empty, Map.keys], by simp [empty], by simp [empty],
    by simp [empty, Map.lookup], by simp [empty, Map.lookup]⟩

theorem assign_of_contains {s : ScopeIdAllocation} {name : String}
    (h : Map.contains s.nameToIdMap name = true) : assign s name = s := by
  simp [assign, h]

theorem assign_of_not_contains {s : ScopeIdAllocation} {name : String} (hs : Inv s)
    (h : Map.contains s.nameToIdMap name = false) :
    assign s name =
      { s with
        nameToIdMap := s.nameToIdMap ++ [(name, s.id)]
        idToNameMap := s.idToNameMap ++ [(s.id, name)]
        id := s.id + 1 } := by
  have h1 : Map.lookup s.nameToIdMap name = none := (Map.contains_eq_false_iff _ _).1 h
  have h2 : Map.lookup s.idToNameMap s.id = none := by
    rw [Map.lookup_eq_none_iff, hs.inverse]
    have : Map.keys (s.nameToIdMap.map Prod.swap) = s.nameToIdMap.map Prod.snd := by
      simp [Map.keys, List.map_map, Function.comp_def]
    rw [this, hs.ids]
    simp
  simp [assign, h, Map.set_eq_append _ h1, Map.set_eq_append _ h2]

theorem lookup_assign_mono {s : ScopeIdAllocation} {name : String} (hs : Inv s) {N : String}
    {i : Nat} (h : Map.lookup s.nameToIdMap N = some i) :
    Map.lookup (assign s name).nameToIdMap N = some i := by
  cases hc : Map.contains s.nameToIdMap name with
  | true => rw [assign_of_contains hc]; exact h
  | false =>
    rw [assign_of_not_contains hs hc]
    exact Map.lookup_append_left _ h

theorem lookup_assign_self {s : ScopeIdAllocation} (name : String) (hs : Inv s) :
    ∃ i, Map.lookup (assign s name).nameToIdMap name = some i := by
  cases hc : Map.contains s.nameToIdMap name with
  | true =>
    rw [assign_of_contains hc]
    exact (Map.contains_eq_true_iff _ _).1 hc
  | false =>
    rw [assign_of_not_contains hs hc]
    refine ⟨s.id, ?_⟩
    show Map.lookup (s.nameToIdMap ++ [(name, s.id)]) name = some s.id
    rw [Map.lookup_append_right _ ((Map.contains_eq_false_iff _ _).1 hc)]
    simp [Map.lookup]

theorem assign_frame (s : ScopeIdAllocation) (name : String) :
    (assign s name).activeScopes = s.activeScopes ∧ (assign s name).opToIdMap = s.opToIdMap ∧
      (assign s name).diagnostics = s.diagnostics := by
  unfold assign
  split <;> simp

theorem inv_assign {s : ScopeIdAllocation} (name : String) (hs : Inv s) : Inv (assign s name) := by
  cases hc : Map.contains s.nameToIdMap name with
  | true => rw [assign_of_contains hc]; exact hs
  | false =>
    have h1 : Map.lookup s.nameToIdMap name = none := (Map.contains_eq_false_iff _ _).1 hc
    rw [assign_of_not_contains hs hc]
    refine ⟨?_, ?_, ?_, ?_, ?_⟩
    · have hk : name ∉ Map.keys s.nameToIdMap := (Map.lookup_eq_none_iff _ _).1 h1
      have : Map.keys (s.nameToIdMap ++ [(name, s.id)]) = Map.keys s.nameToIdMap ++ [name] := by
        simp [Map.keys]
      show (Map.keys (s.nameToIdMap ++ [(name, s.id)])).Nodup
      rw [this]
      exact List.nodup_append.2 ⟨hs.keysNodup, List.nodup_singleton _, by
        intro a ha hb
        rw [List.mem_singleton] at hb
        exact hk (hb ▸ ha)⟩
    · show (s.nameToIdMap ++ [(name, s.id)]).map Prod.snd = List.range (s.id + 1)
      rw [List.map_append, hs.ids, List.range_succ]
      rfl
    · show s.idToNameMap ++ [(s.id, name)] = (s.nameToIdMap ++ [(name, s.id)]).map Prod.swap
      rw [List.map_append, hs.inverse]
      rfl
    · intro N i h
      exact Map.lookup_append_left _ (hs.active N i h)
    · intro op i h
      exact Map.lookup_append_left _ (hs.recorded op i h)

theorem inv_visit {s : ScopeIdAllocation} (recordOp : RecordOp) (hs : Inv s) :
    Inv (visit s recordOp) := by
  unfold visit
  simp only
  split
  · split
    · exact ⟨hs.keysNodup, hs.ids, hs.inverse, hs.active, hs.recorded⟩
    · have h1 := inv_assign recordOp.name hs
      obtain ⟨v, hv⟩ := lookup_assign_self recordOp.name hs
      have hd : Map.lookupD (assign s recordOp.name).nameToIdMap recordOp.name = v := by
        simp [Map.lookupD, hv]
      rw [hd]
      refine ⟨h1.keysNodup, h1.ids, h1.inverse, ?_, ?_⟩
      · intro N i h
        simp only [Map.lookup_set] at h
        split at h
        · next e => cases h; exact e ▸ hv
        · exact h1.active N i h
      · intro op i h
        simp only [Map.lookup_set] at h
        split at h
        · next e => cases h; exact e ▸ hv
        · exact h1.recorded op i h
  · split
    · next hc =>
      obtain ⟨v, hv⟩ := (Map.contains_eq_true_iff _ _).1 hc
      have hd : Map.lookupD s.activeScopes recordOp.name = v := by
        simp [Map.lookupD, hv]
      rw [hd]
      refine ⟨hs.keysNodup, hs.ids, hs.inverse, ?_, ?_⟩
      · intro N i h
        simp only [Map.lookup_erase] at h
        split at h
        · cases h
        · exact hs.active N i h
      · intro op i h
        simp only [Map.lookup_set] at h
        split at h
        · next e => cases h; exact e ▸ hs.active _ _ hv
        · exact hs.recorded op i h
    · exact ⟨hs.keysNodup, hs.ids, hs.inverse, hs.active, hs.recorded⟩

theorem inv_foldl (l : List RecordOp) {s : ScopeIdAllocation} (hs : Inv s) :
    Inv (l.foldl visit s) := by
  induction l generalizing s with
  | nil => exact hs
  | cons op rest ih => exact ih (inv_visit op hs)

theorem inv_scan (funcOp : FuncOp) : Inv (scan funcOp) := inv_foldl _ inv_empty

theorem inv_run (funcOp : FuncOp) : Inv (run funcOp) := by
  have h := inv_scan funcOp
  exact ⟨h.keysNodup, h.ids, h.inverse, h.active, h.recorded⟩

end ScopeIdAllocation

/-! ## Which names receive which id -/

namespace ScopeIdAllocation

theorem length_nameToIdMap {s : ScopeIdAllocation} (hs : Inv s) : s.nameToIdMap.length = s.id := by
  have := congrArg List.length hs.ids
  simpa using this

theorem visit_nameToIdMap {s : ScopeIdAllocation} (hs : Inv s) (op : RecordOp) :
    (visit s op).nameToIdMap =
      if op.isStart then (assign s op.name).nameToIdMap else s.nameToIdMap := by
  unfold visit
  simp only
  cases hst : op.isStart with
  | true =>
    simp only [if_true]
    split
    · next hc =>
      obtain ⟨v, hv⟩ := (Map.contains_eq_true_iff _ _).1 hc
      have : Map.contains s.nameToIdMap op.name = true :=
        (Map.contains_eq_true_iff _ _).2 ⟨v, hs.active _ _ hv⟩
      rw [assign_of_contains this]
    · rfl
  | false =>
    simp only [Bool.false_eq_true, if_false]
    split <;> rfl

theorem keys_assign {s : ScopeIdAllocation} (hs : Inv s) (name : String) :
    Map.keys (assign s name).nameToIdMap =
      if name ∈ Map.keys s.nameToIdMap then Map.keys s.nameToIdMap
      else Map.keys s.nameToIdMap ++ [name] := by
  cases hc : Map.contains s.nameToIdMap name with
  | true =>
    obtain ⟨v, hv⟩ := (Map.contains_eq_true_iff _ _).1 hc
    have hm : name ∈ Map.keys s.nameToIdMap := by
      by_contra hcon
      rw [← Map.lookup_eq_none_iff, hv] at hcon
      cases hcon
    rw [assign_of_contains hc, if_pos hm]
  | false =>
    have hm : name ∉ Map.keys s.nameToIdMap :=
      (Map.lookup_eq_none_iff _ _).1 ((Map.contains_eq_false_iff _ _).1 hc)
    rw [assign_of_not_contains hs hc, if_neg hm]
    simp [Map.keys]

theorem lookup_foldl_mono (l : List RecordOp) {s : ScopeIdAllocation} (hs : Inv s) {N : String}
    {i : Nat} (h : Map.lookup s.nameToIdMap N = some i) :
    Map.lookup (l.foldl visit s).nameToIdMap N = some i := by
  induction l generalizing s with
  | nil => exact h
  | cons op rest ih =>
    refine ih (inv_visit op hs) ?_
    rw [visit_nameToIdMap hs]
    split
    · exact lookup_assign_mono hs h
    · exact h

theorem mem_keys_foldl (l : List RecordOp) {s : ScopeIdAllocation} (hs : Inv s) (N : String) :
    N ∈ Map.keys (l.foldl visit s).nameToIdMap ↔
      N ∈ Map.keys s.nameToIdMap ∨ N ∈ startNames l := by
  induction l generalizing s with
  | nil => simp [startNames]
  | cons op rest ih =>
    rw [List.foldl_cons, ih (inv_visit op hs), visit_nameToIdMap hs]
    cases hst : op.isStart with
    | true =>
      simp only [if_true, keys_assign hs, startNames, List.filter_cons, hst, List.map_cons,
        List.mem_cons]
      split
      · next hm =>
        constructor
        · rintro (h | h)
          · exact Or.inl h
          · exact Or.inr (Or.inr h)
        · rintro (h | h | h)
          · exact Or.inl h
          · exact Or.inl (h ▸ hm)
          · exact Or.inr h
      · simp only [List.mem_append, List.mem_singleton]
        tauto
    | false =>
      simp [startNames, List.filter_cons, hst]

theorem lookup_foldl_fresh (l : List RecordOp) {s : ScopeIdAllocation} (hs : Inv s) {N : String}
    (hN : N ∉ Map.keys s.nameToIdMap) (hmem : N ∈ startNames l) :
    Map.lookup (l.foldl visit s).nameToIdMap N =
      some (((Map.keys s.nameToIdMap).toFinset ∪
        ((startNames l).takeWhile (fun x => decide (x ≠ N))).toFinset).card) := by
  induction l generalizing s with
  | nil => simp [startNames] at hmem
  | cons op rest ih =>
    rw [List.foldl_cons]
    have hv := visit_nameToIdMap hs op
    cases hst : op.isStart with
    | false =>
      rw [hst] at hv
      simp only [Bool.false_eq_true, if_false] at hv
      have e : startNames (op :: rest) = startNames rest := by
        simp [startNames, List.filter_cons, hst]
      rw [e] at hmem ⊢
      rw [ih (inv_visit op hs) (by rw [hv]; exact hN) hmem, hv]
    | true =>
      rw [hst] at hv
      simp only [if_true] at hv
      have e : startNames (op :: rest) = op.name :: startNames rest := by
        simp [startNames, List.filter_cons, hst]
      rw [e] at hmem ⊢
      by_cases hname : op.name = N
      · have hc : Map.contains s.nameToIdMap op.name = false := by
          rw [Map.contains_eq_false_iff, Map.lookup_eq_none_iff, hname]
          exact hN
        have h1 : Map.lookup (visit s op).nameToIdMap N = some s.id := by
          rw [hv, assign_of_not_contains hs hc, hname]
          show Map.lookup (s.nameToIdMap ++ [(N, s.id)]) N = some s.id
          rw [Map.lookup_append_right _ ((Map.lookup_eq_none_iff _ _).2 hN)]
          simp [Map.lookup]
        rw [lookup_foldl_mono rest (inv_visit op hs) h1]
        have h2 : List.takeWhile (fun x => decide (x ≠ N)) (op.name :: startNames rest) = [] := by
          simp [List.takeWhile_cons, hname]
        rw [h2, List.toFinset_nil, Finset.union_empty, List.toFinset_card_of_nodup hs.keysNodup]
        simp [Map.keys, length_nameToIdMap hs]
      · have hmem2 : N ∈ startNames rest := by
          rcases List.mem_cons.1 hmem with h | h
          · exact absurd h.symm hname
          · exact h
        have hk := keys_assign hs op.name
        rw [← hv] at hk
        have hN2 : N ∉ Map.keys (visit s op).nameToIdMap := by
          rw [hk]
          split
          · exact hN
          · simp only [List.mem_append, List.mem_singleton, not_or]
            exact ⟨hN, fun h => hname h.symm⟩
        rw [ih (inv_visit op hs) hN2 hmem2]
        have h2 : List.takeWhile (fun x => decide (x ≠ N)) (op.name :: startNames rest) =
            op.name :: List.takeWhile (fun x => decide (x ≠ N)) (startNames rest) := by
          simp [List.takeWhile_cons, hname]
        rw [h2, hk]
        congr 2
        ext x
        split
        · next hm =>
          simp only [Finset.mem_union, List.mem_toFinset, List.mem_cons]
          constructor
          · rintro (h | h)
            · exact Or.inl h
            · exact Or.inr (Or.inr h)
          · rintro (h | h | h)
            · exact Or.inl h
            · exact Or.inl (h ▸ hm)
            · exact Or.inr h
        · simp only [Finset.mem_union, List.mem_toFinset, List.mem_cons, List.mem_append,
            List.mem_singleton]
          tauto

theorem mem_startNames {l : List RecordOp} {N : String} :
    N ∈ startNames l ↔ ∃ op ∈ l, op.isStart = true ∧ op.name = N := by
  simp [startNames, and_assoc]

theorem foldl_filter_nameToIdMap (l : List RecordOp) {s t : ScopeIdAllocation} (hs : Inv s)
    (ht : Inv t) (hn : s.nameToIdMap = t.nameToIdMap) :
    (l.foldl visit s).nameToIdMap =
      ((l.filter (fun op => op.isStart)).foldl visit t).nameToIdMap := by
  have hid : s.id = t.id := by rw [← length_nameToIdMap hs, ← length_nameToIdMap ht, hn]
  induction l generalizing s t with
  | nil => exact hn
  | cons op rest ih =>
    cases hst : op.isStart with
    | false =>
      rw [List.foldl_cons, List.filter_cons, hst]
      simp only [Bool.false_eq_true, if_false]
      have hv := visit_nameToIdMap hs op
      rw [hst] at hv
      simp only [Bool.false_eq_true, if_false] at hv
      have hn2 : (visit s op).nameToIdMap = t.nameToIdMap := by rw [hv, hn]
      exact ih (inv_visit op hs) ht hn2
        (by rw [← length_nameToIdMap (inv_visit op hs), ← length_nameToIdMap ht, hn2])
    | true =>
      rw [List.foldl_cons, List.filter_cons, hst]
      simp only [if_true, List.foldl_cons]
      have hv := visit_nameToIdMap hs op
      have hw := visit_nameToIdMap ht op
      rw [hst] at hv hw
      simp only [if_true] at hv hw
      have hn2 : (visit s op).nameToIdMap = (visit t op).nameToIdMap := by
        rw [hv, hw]
        unfold assign
        rw [hn, hid]
        split
        · rfl
        · exact hn
      exact ih (inv_visit op hs) (inv_visit op ht) hn2
        (by rw [← length_nameToIdMap (inv_visit op hs), ← length_nameToIdMap (inv_visit op ht),
          hn2])

end ScopeIdAllocation

/-! ## Recorded instructions and diagnostics -/

namespace ScopeIdAllocation

theorem recordAnchor_defectOf (op : RecordOp) : (defectOf op).recordAnchor = some op := by
  unfold defectOf
  split <;> rfl

theorem visit_of_rejects {s : ScopeIdAllocation} {op : RecordOp} (h : rejects s op = true) :
    (visit s op).opToIdMap = s.opToIdMap ∧
      (visit s op).diagnostics = s.diagnostics ++ [defectOf op] := by
  unfold rejects at h
  unfold visit defectOf
  cases hst : op.isStart <;> cases hc : Map.contains s.activeScopes op.name <;>
    simp [hst, hc] at h ⊢

theorem visit_of_not_rejects {s : ScopeIdAllocation} {op : RecordOp} (h : rejects s op = false) :
    (∃ v, (visit s op).opToIdMap = Map.set s.opToIdMap op v) ∧
      (visit s op).diagnostics = s.diagnostics := by
  unfold rejects at h
  unfold visit
  cases hst : op.isStart <;> cases hc : Map.contains s.activeScopes op.name <;>
    simp [hst, hc] at h ⊢
  · exact ⟨⟨_, by rw [(assign_frame s op.name).2.1]⟩, (assign_frame s op.name).2.2⟩

theorem anchoredAt_append (op : RecordOp) (ds es : List Diagnostic) :
    anchoredAt op (ds ++ es) = anchoredAt op ds ++ anchoredAt op es := by
  simp [anchoredAt]

theorem atRecordOps_append (ds es : List Diagnostic) :
    atRecordOps (ds ++ es) = atRecordOps ds ++ atRecordOps es := by
  simp [atRecordOps]

theorem anchoredAt_unclosed (op : RecordOp) (funcOp : FuncOp) (s : ScopeIdAllocation) :
    anchoredAt op (unclosed funcOp s) = [] := by
  unfold unclosed anchoredAt
  split
  · rw [List.filter_eq_nil_iff]
    intro d hd
    obtain ⟨p, _, rfl⟩ := List.mem_map.1 hd
    simp [Diagnostic.recordAnchor]
  · rfl

theorem atRecordOps_unclosed (funcOp : FuncOp) (s : ScopeIdAllocation) :
    atRecordOps (unclosed funcOp s) = [] := by
  unfold unclosed atRecordOps
  split
  · rw [List.filter_eq_nil_iff]
    intro d hd
    obtain ⟨p, _, rfl⟩ := List.mem_map.1 hd
    simp [Diagnostic.recordAnchor]
  · rfl

theorem visit_frame {s : ScopeIdAllocation} {x op : RecordOp} (hne : x ≠ op) :
    Map.lookup (visit s x).opToIdMap op = Map.lookup s.opToIdMap op ∧
      anchoredAt op (visit s x).diagnostics = anchoredAt op s.diagnostics := by
  cases hr : rejects s x with
  | true =>
    obtain ⟨h1, h2⟩ := visit_of_rejects hr
    rw [h1, h2, anchoredAt_append]
    refine ⟨rfl, ?_⟩
    have : anchoredAt op [defectOf x] = [] := by
      simp [anchoredAt, recordAnchor_defectOf, hne]
    rw [this, List.append_nil]
  | false =>
    obtain ⟨⟨v, h1⟩, h2⟩ := visit_of_not_rejects hr
    rw [h1, h2, Map.lookup_set, if_neg hne]
    exact ⟨rfl, rfl⟩

theorem foldl_frame (l : List RecordOp) {s : ScopeIdAllocation} {op : RecordOp} (hop : op ∉ l) :
    Map.lookup (l.foldl visit s).opToIdMap op = Map.lookup s.opToIdMap op ∧
      anchoredAt op (l.foldl visit s).diagnostics = anchoredAt op s.diagnostics := by
  induction l generalizing s with
  | nil => exact ⟨rfl, rfl⟩
  | cons x rest ih =>
    have hx : x ≠ op := fun e => hop (e ▸ List.mem_cons_self _ _)
    have hrest : op ∉ rest := fun e => hop (List.mem_cons_of_mem _ e)
    obtain ⟨a, b⟩ := ih (s := visit s x) hrest
    obtain ⟨c, d⟩ := visit_frame (s := s) hx
    exact ⟨a.trans c, b.trans d⟩

theorem size_set_of_absent {κ ν : Type} [DecidableEq κ] {m : Map κ ν} {k : κ} (v : ν)
    (h : Map.lookup m k = none) : Map.size (Map.set m k v) = Map.size m + 1 := by
  rw [Map.set_eq_append v h]
  simp [Map.size]

theorem foldl_count (l : List RecordOp) {s : ScopeIdAllocation} (hnd : l.Nodup)
    (hfresh : ∀ x ∈ l, Map.lookup s.opToIdMap x = none) :
    Map.size (l.foldl visit s).opToIdMap + (atRecordOps (l.foldl visit s).diagnostics).length =
      Map.size s.opToIdMap + (atRecordOps s.diagnostics).length + l.length := by
  induction l generalizing s with
  | nil => rfl
  | cons x rest ih =>
    have hx : x ∉ rest := (List.nodup_cons.1 hnd).1
    have hfresh2 : ∀ y ∈ rest, Map.lookup (visit s x).opToIdMap y = none := by
      intro y hy
      have hne : x ≠ y := fun e => hx (e ▸ hy)
      rw [(visit_frame (s := s) hne).1]
      exact hfresh y (List.mem_cons_of_mem _ hy)
    rw [List.foldl_cons, ih (List.nodup_cons.1 hnd).2 hfresh2]
    cases hr : rejects s x with
    | true =>
      obtain ⟨h1, h2⟩ := visit_of_rejects hr
      rw [h1, h2, atRecordOps_append]
      have : atRecordOps [defectOf x] = [defectOf x] := by
        simp [atRecordOps, recordAnchor_defectOf]
      rw [this]
      simp only [List.length_append, List.length_cons, List.length_nil]
      omega
    | false =>
      obtain ⟨⟨v, h1⟩, h2⟩ := visit_of_not_rejects hr
      rw [h1, h2, size_set_of_absent v (hfresh x (List.mem_cons_self _ _))]
      simp only [List.length_cons]
      omega

theorem scan_at_marker {funcOp : FuncOp} (hnd : funcOp.recordOps.Nodup) {pre post : List RecordOp}
    {op : RecordOp} (hsplit : funcOp.recordOps = pre ++ op :: post) :
    Map.lookup (run funcOp).opToIdMap op = Map.lookup (visit (pre.foldl visit empty) op).opToIdMap op ∧
      anchoredAt op (run funcOp).diagnostics =
        anchoredAt op (visit (pre.foldl visit empty) op).diagnostics := by
  rw [hsplit] at hnd
  have hpost : op ∉ post := by
    have := (List.nodup_append.1 hnd).2.1
    exact (List.nodup_cons.1 this).1
  have hscan : scan funcOp = post.foldl visit (visit (pre.foldl visit empty) op) := by
    simp [scan, hsplit, List.foldl_append]
  obtain ⟨a, b⟩ := foldl_frame post (s := visit (pre.foldl visit empty) op) hpost
  constructor
  · show Map.lookup (scan funcOp).opToIdMap op = _
    rw [hscan]
    exact a
  · show anchoredAt op ((scan funcOp).diagnostics ++ unclosed funcOp (scan funcOp)) = _
    rw [anchoredAt_append, anchoredAt_unclosed, List.append_nil, hscan]
    exact b

theorem prefix_fresh {l pre post : List RecordOp} {op : RecordOp} (hnd : l.Nodup)
    (hsplit : l = pre ++ op :: post) :
    Map.lookup (pre.foldl visit empty).opToIdMap op = none ∧
      anchoredAt op (pre.foldl visit empty).diagnostics = [] := by
  rw [hsplit] at hnd
  have hpre : op ∉ pre := by
    intro h
    exact (List.nodup_append.1 hnd).2.2 h (List.mem_cons_self _ _)
  obtain ⟨a, b⟩ := foldl_frame pre (s := empty) hpre
  exact ⟨a, b⟩

end ScopeIdAllocation

/-! ## Invariant of the call graph walk -/

namespace ModuleScopeIdAllocation

theorem lookup_map_self {ν : Type} (l : List FuncOp) (g : FuncOp → ν) (f : FuncOp) :
    Map.lookup (l.map (fun x => (x, g x))) f = if f ∈ l then some (g f) else none := by
  induction l with
  | nil => simp [Map.lookup]
  | cons x rest ih =>
    by_cases h : x = f
    · simp [Map.lookup, h]
    · have h' : ¬ f = x := fun e => h e.symm
      simp [Map.lookup, h, h', ih]

theorem keys_withOffsets (o : Nat) (fs : List FuncOp) : Map.keys (withOffsets o fs) = fs := by
  induction fs generalizing o with
  | nil => rfl
  | cons f rest ih =>
    have := ih (o + numScopes f)
    simp only [Map.keys] at this
    simp [withOffsets, Map.keys, this]

theorem withOffsets_append (o : Nat) (fs : List FuncOp) (f : FuncOp) :
    withOffsets o (fs ++ [f]) = withOffsets o fs ++ [(f, o + (fs.map numScopes).sum)] := by
  induction fs generalizing o with
  | nil => simp [withOffsets]
  | cons g rest ih => simp [withOffsets, ih, Nat.add_assoc]

theorem walkInv_empty : WalkInv empty :=
  ⟨by simp [empty, Map.keys], by simp [empty, Map.keys], by simp [empty, Map.keys, withOffsets],
    by simp [empty, Map.keys], rfl⟩

theorem contains_funcMap_iff {m : ModuleScopeIdAllocation} (hm : WalkInv m) (f : FuncOp) :
    Map.contains m.funcMap f = true ↔ f ∈ Map.keys m.funcScopeIdMap := by
  rw [hm.memo, Map.contains, lookup_map_self]
  split <;> simp [*]

theorem nodeCallback_of_mem {m : ModuleScopeIdAllocation} (hm : WalkInv m) {f : FuncOp}
    (hf : f ∈ Map.keys m.funcScopeIdMap) : nodeCallback m f = m := by
  simp [nodeCallback, (contains_funcMap_iff hm f).2 hf]

theorem nodeCallback_of_not_mem {m : ModuleScopeIdAllocation} (hm : WalkInv m) {f : FuncOp}
    (hf : f ∉ Map.keys m.funcScopeIdMap) :
    nodeCallback m f =
      { m with
        funcMap := m.funcMap ++ [(f, ScopeIdAllocation.run f)]
        funcScopeIdMap := m.funcScopeIdMap ++ [(f, m.funcScopeId)]
        funcScopeId := m.funcScopeId + numScopes f } := by
  have hc : Map.contains m.funcMap f = false := by
    cases h : Map.contains m.funcMap f with
    | false => rfl
    | true => exact absurd ((contains_funcMap_iff hm f).1 h) hf
  have hl : Map.lookup m.funcMap f = none := (Map.contains_eq_false_iff _ _).1 hc
  have hd : Map.lookupD (m.funcMap ++ [(f, ScopeIdAllocation.run f)]) f =
      ScopeIdAllocation.run f := by
    simp [Map.lookupD, Map.lookup_append_right _ hl, Map.lookup]
  have hs : Map.set m.funcScopeIdMap f m.funcScopeId = m.funcScopeIdMap ++ [(f, m.funcScopeId)] :=
    Map.set_eq_append _ ((Map.lookup_eq_none_iff _ _).2 hf)
  simp [nodeCallback, hc, Map.tryEmplace, hd, hs, numScopes]

theorem walkInv_nodeCallback {m : ModuleScopeIdAllocation} (hm : WalkInv m) (f : FuncOp) :
    WalkInv (nodeCallback m f) := by
  by_cases hf : f ∈ Map.keys m.funcScopeIdMap
  · rw [nodeCallback_of_mem hm hf]; exact hm
  · rw [nodeCallback_of_not_mem hm hf]
    have hk : Map.keys (m.funcScopeIdMap ++ [(f, m.funcScopeId)]) =
        Map.keys m.funcScopeIdMap ++ [f] := by simp [Map.keys]
    refine ⟨?_, ?_, ?_, ?_, hm.names⟩
    · show (Map.keys (m.funcScopeIdMap ++ [(f, m.funcScopeId)])).Nodup
      rw [hk]
      exact List.nodup_append.2 ⟨hm.keysNodup, List.nodup_singleton _, by
        intro a ha hb
        rw [List.mem_singleton] at hb
        exact hf (hb ▸ ha)⟩
    · show m.funcMap ++ [(f, ScopeIdAllocation.run f)] =
        (Map.keys (m.funcScopeIdMap ++ [(f, m.funcScopeId)])).map
          (fun f => (f, ScopeIdAllocation.run f))
      rw [hk, List.map_append, ← hm.memo]
      rfl
    · show m.funcScopeIdMap ++ [(f, m.funcScopeId)] =
        withOffsets 0 (Map.keys (m.funcScopeIdMap ++ [(f, m.funcScopeId)]))
      rw [hk, withOffsets_append, ← hm.offsets, hm.counter, Nat.zero_add]
    · show m.funcScopeId + numScopes f =
        ((Map.keys (m.funcScopeIdMap ++ [(f, m.funcScopeId)])).map numScopes).sum
      rw [hk, List.map_append, List.sum_append, hm.counter]
      simp

theorem walkInv_foldl (vs : List FuncOp) {m : ModuleScopeIdAllocation} (hm : WalkInv m) :
    WalkInv (vs.foldl nodeCallback m) := by
  induction vs generalizing m with
  | nil => exact hm
  | cons f rest ih => exact ih (walkInv_nodeCallback hm f)

theorem keys_nodeCallback {m : ModuleScopeIdAllocation} (hm : WalkInv m) (f : FuncOp) :
    Map.keys (nodeCallback m f).funcScopeIdMap =
      if f ∈ Map.keys m.funcScopeIdMap then Map.keys m.funcScopeIdMap
      else Map.keys m.funcScopeIdMap ++ [f] := by
  split
  · next hf => rw [nodeCallback_of_mem hm hf]
  · next hf =>
    rw [nodeCallback_of_not_mem hm hf]
    simp [Map.keys]

theorem mem_keys_walk (vs : List FuncOp) {m : ModuleScopeIdAllocation} (hm : WalkInv m)
    (f : FuncOp) :
    f ∈ Map.keys (vs.foldl nodeCallback m).funcScopeIdMap ↔
      f ∈ Map.keys m.funcScopeIdMap ∨ f ∈ vs := by
  induction vs generalizing m with
  | nil => simp
  | cons g rest ih =>
    rw [List.foldl_cons, ih (walkInv_nodeCallback hm g), keys_nodeCallback hm g]
    split
    · next hg =>
      simp only [List.mem_cons]
      constructor
      · rintro (h | h)
        · exact Or.inl h
        · exact Or.inr (Or.inr h)
      · rintro (h | h | h)
        · exact Or.inl h
        · exact Or.inl (h ▸ hg)
        · exact Or.inr h
    · simp only [List.mem_append, List.mem_singleton, List.mem_cons]
      tauto

theorem lookup_walk_mono (vs : List FuncOp) {m : ModuleScopeIdAllocation} (hm : WalkInv m)
    {f : FuncOp} {o : Nat} (h : Map.lookup m.funcScopeIdMap f = some o) :
    Map.lookup (vs.foldl nodeCallback m).funcScopeIdMap f = some o := by
  induction vs generalizing m with
  | nil => exact h
  | cons g rest ih =>
    refine ih (walkInv_nodeCallback hm g) ?_
    by_cases hg : g ∈ Map.keys m.funcScopeIdMap
    · rw [nodeCallback_of_mem hm hg]; exact h
    · rw [nodeCallback_of_not_mem hm hg]
      exact Map.lookup_append_left _ h

theorem counter_eq_sum {m : ModuleScopeIdAllocation} (hm : WalkInv m) :
    m.funcScopeId = ∑ g in (Map.keys m.funcScopeIdMap).toFinset, numScopes g := by
  rw [hm.counter, List.sum_toFinset _ hm.keysNodup]

theorem lookup_walk_fresh (vs : List FuncOp) {m : ModuleScopeIdAllocation} (hm : WalkInv m)
    {f : FuncOp} (hf : f ∉ Map.keys m.funcScopeIdMap) (hmem : f ∈ vs) :
    Map.lookup (vs.foldl nodeCallback m).funcScopeIdMap f =
      some (∑ g in (Map.keys m.funcScopeIdMap).toFinset ∪
        (vs.takeWhile (fun x => decide (x ≠ f))).toFinset, numScopes g) := by
  induction vs generalizing m with
  | nil => simp at hmem
  | cons g rest ih =>
    rw [List.foldl_cons]
    by_cases hgf : g = f
    · subst hgf
      have h1 : Map.lookup (nodeCallback m g).funcScopeIdMap g = some m.funcScopeId := by
        rw [nodeCallback_of_not_mem hm hf]
        show Map.lookup (m.funcScopeIdMap ++ [(g, m.funcScopeId)]) g = some m.funcScopeId
        rw [Map.lookup_append_right _ ((Map.lookup_eq_none_iff _ _).2 hf)]
        simp [Map.lookup]
      rw [lookup_walk_mono rest (walkInv_nodeCallback hm g) h1]
      have h2 : List.takeWhile (fun x => decide (x ≠ g)) (g :: rest) = [] := by
        simp [List.takeWhile_cons]
      rw [h2, List.toFinset_nil, Finset.union_empty, counter_eq_sum hm]
    · have hmem2 : f ∈ rest := by
        rcases List.mem_cons.1 hmem with h | h
        · exact absurd h.symm hgf
        · exact h
      have hk := keys_nodeCallback hm g
      have hf2 : f ∉ Map.keys (nodeCallback m g).funcScopeIdMap := by
        rw [hk]
        split
        · exact hf
        · simp only [List.mem_append, List.mem_singleton, not_or]
          exact ⟨hf, fun h => hgf h.symm⟩
      rw [ih (walkInv_nodeCallback hm g) hf2 hmem2]
      have h2 : List.takeWhile (fun x => decide (x ≠ f)) (g :: rest) =
          g :: List.takeWhile (fun x => decide (x ≠ f)) rest := by
        simp [List.takeWhile_cons, hgf]
      rw [h2, hk]
      congr 2
      ext x
      split
      · next hg =>
        simp only [Finset.mem_union, List.mem_toFinset, List.mem_cons]
        constructor
        · rintro (h | h)
          · exact Or.inl h
          · exact Or.inr (Or.inr h)
        · rintro (h | h | h)
          · exact Or.inl h
          · exact Or.inl (h ▸ hg)
          · exact Or.inr h
      · simp only [Finset.mem_union, List.mem_toFinset, List.mem_cons, List.mem_append,
          List.mem_singleton]
        tauto

end ModuleScopeIdAllocation

/-! ## The precomputed name lists -/

namespace ModuleScopeIdAllocation

theorem precompute_frame (l : List (FuncOp × Nat)) (m : ModuleScopeIdAllocation) :
    (l.foldl precompute m).funcMap = m.funcMap ∧
      (l.foldl precompute m).funcScopeIdMap = m.funcScopeIdMap ∧
      (l.foldl precompute m).funcScopeId = m.funcScopeId := by
  induction l generalizing m with
  | nil => exact ⟨rfl, rfl, rfl⟩
  | cons e rest ih => exact ih (precompute m e)

theorem precompute_names (l : List (FuncOp × Nat)) (m : ModuleScopeIdAllocation)
    (hnd : (Map.keys l).Nodup) (hfresh : ∀ e ∈ l, e.1 ∉ Map.keys m.scopeIdNames) :
    (l.foldl precompute m).scopeIdNames =
      m.scopeIdNames ++
        l.map (fun e => (e.1, shifted (Map.lookupD m.funcMap e.1).getScopeIdNames e.2)) := by
  induction l generalizing m with
  | nil => simp
  | cons e rest ih =>
    simp only [Map.keys, List.map_cons, List.nodup_cons] at hnd
    have habs : Map.lookup m.scopeIdNames e.1 = none :=
      (Map.lookup_eq_none_iff _ _).2 (hfresh e (List.mem_cons_self _ _))
    have hnames : (precompute m e).scopeIdNames =
        m.scopeIdNames ++ [(e.1, shifted (Map.lookupD m.funcMap e.1).getScopeIdNames e.2)] := by
      show Map.set m.scopeIdNames e.1 _ = _
      rw [Map.set_eq_append _ habs]
      rfl
    have hfm : (precompute m e).funcMap = m.funcMap := rfl
    have hfresh2 : ∀ x ∈ rest, x.1 ∉ Map.keys (precompute m e).scopeIdNames := by
      intro x hx
      rw [hnames]
      simp only [Map.keys, List.map_append, List.map_cons, List.map_nil, List.mem_append,
        List.mem_singleton, not_or]
      refine ⟨hfresh x (List.mem_cons_of_mem _ hx), ?_⟩
      intro hxe
      exact hnd.1 (hxe ▸ List.mem_map_of_mem Prod.fst hx)
    rw [List.foldl_cons, ih (precompute m e) hnd.2 hfresh2, hnames, hfm]
    simp

theorem lookupD_memo {m : ModuleScopeIdAllocation} (hm : WalkInv m) {f : FuncOp}
    (hf : f ∈ Map.keys m.funcScopeIdMap) : Map.lookupD m.funcMap f = ScopeIdAllocation.run f := by
  rw [Map.lookupD, hm.memo, lookup_map_self, if_pos hf]
  rfl

theorem lookupD_memo_absent {m : ModuleScopeIdAllocation} (hm : WalkInv m) {f : FuncOp}
    (hf : f ∉ Map.keys m.funcScopeIdMap) : Map.lookupD m.funcMap f = ScopeIdAllocation.empty := by
  rw [Map.lookupD, hm.memo, lookup_map_self, if_neg hf]
  rfl

theorem construct_fields (visits : List FuncOp) :
    (construct visits).funcMap = (visits.foldl nodeCallback empty).funcMap ∧
      (construct visits).funcScopeIdMap = (visits.foldl nodeCallback empty).funcScopeIdMap ∧
      (construct visits).scopeIdNames =
        (visits.foldl nodeCallback empty).funcScopeIdMap.map
          (fun e => (e.1, shifted (ScopeIdAllocation.run e.1).getScopeIdNames e.2)) := by
  have hm := walkInv_foldl visits walkInv_empty
  obtain ⟨a, b, _⟩ := precompute_frame (visits.foldl nodeCallback empty).funcScopeIdMap
    (visits.foldl nodeCallback empty)
  refine ⟨a, b, ?_⟩
  show ((visits.foldl nodeCallback empty).funcScopeIdMap.foldl precompute
    (visits.foldl nodeCallback empty)).scopeIdNames = _
  rw [precompute_names _ _ hm.keysNodup (by intro e _; rw [hm.names]; simp [Map.keys]), hm.names,
    List.nil_append]
  apply List.map_congr_left
  intro e he
  rw [lookupD_memo hm (List.mem_map_of_mem Prod.fst he)]

theorem walkInv_construct (visits : List FuncOp) :
    (Map.keys (construct visits).funcScopeIdMap).Nodup ∧
      (construct visits).funcScopeIdMap =
        withOffsets 0 (Map.keys (construct visits).funcScopeIdMap) ∧
      (∀ f, f ∈ Map.keys (construct visits).funcScopeIdMap ↔ f ∈ visits) ∧
      (∀ f, f ∈ visits → Map.lookupD (construct visits).funcMap f = ScopeIdAllocation.run f) ∧
      (∀ f, f ∉ visits → Map.lookupD (construct visits).funcMap f = ScopeIdAllocation.empty) := by
  have hm := walkInv_foldl visits walkInv_empty
  obtain ⟨a, b, _⟩ := construct_fields visits
  have hk : ∀ f, f ∈ Map.keys (visits.foldl nodeCallback empty).funcScopeIdMap ↔ f ∈ visits := by
    intro f
    rw [mem_keys_walk visits walkInv_empty]
    simp [empty, Map.keys]
  rw [a, b]
  exact ⟨hm.keysNodup, hm.offsets, hk, fun f hf => lookupD_memo hm ((hk f).2 hf),
    fun f hf => lookupD_memo_absent hm (fun h => hf ((hk f).1 h))⟩

theorem lookup_map_entry {κ ν μ : Type} [DecidableEq κ] (l : Map κ ν) (g : κ × ν → μ) (k : κ) :
    Map.lookup (l.map (fun e => (e.1, g e))) k = (Map.lookup l k).map (fun v => g (k, v)) := by
  induction l with
  | nil => simp [Map.lookup]
  | cons e rest ih =>
    obtain ⟨k', v⟩ := e
    by_cases h : k' = k
    · subst h
      simp [Map.lookup]
    · simp [Map.lookup, h, ih]

theorem withOffsets_pairwise (o : Nat) (fs : List FuncOp) :
    (withOffsets o fs).Pairwise (fun a b => a.2 + numScopes a.1 ≤ b.2) ∧
      ∀ e ∈ withOffsets o fs, o ≤ e.2 := by
  induction fs generalizing o with
  | nil => simp [withOffsets]
  | cons f rest ih =>
    obtain ⟨hp, hb⟩ := ih (o + numScopes f)
    constructor
    · simp only [withOffsets, List.pairwise_cons]
      exact ⟨fun e he => hb e he, hp⟩
    · intro e he
      simp only [withOffsets, List.mem_cons] at he
      rcases he with rfl | he
      · exact Nat.le_refl _
      · exact Nat.le_trans (Nat.le_add_right _ _) (hb e he)

theorem ids_shifted (f : FuncOp) (o : Nat) :
    (shifted (ScopeIdAllocation.run f).getScopeIdNames o).map Prod.fst =
      List.range' o (numScopes f) := by
  have h := ScopeIdAllocation.inv_run f
  have hlen : numScopes f = (ScopeIdAllocation.run f).id := ScopeIdAllocation.length_nameToIdMap h
  have hids : (ScopeIdAllocation.run f).idToNameMap.map Prod.fst =
      List.range (ScopeIdAllocation.run f).id := by
    rw [h.inverse, ← h.ids]
    simp [List.map_map, Function.comp_def]
  rw [hlen, List.range'_eq_map_range, ← hids]
  simp [shifted, ScopeIdAllocation.getScopeIdNames, List.map_map, Function.comp_def, Nat.add_comm]

theorem foldl_append_init (l : Map FuncOp (List (Nat × String))) (init : List (Nat × String)) :
    l.foldl (fun combined entry => combined ++ entry.2) init =
      init ++ l.foldl (fun combined entry => combined ++ entry.2) [] := by
  induction l generalizing init with
  | nil => simp
  | cons e rest ih =>
    rw [List.foldl_cons, List.foldl_cons, ih (init ++ e.2), ih ([] ++ e.2)]
    simp

theorem ids_withOffsets (o : Nat) (fs : List FuncOp) :
    (((withOffsets o fs).map
        (fun e => (e.1, shifted (ScopeIdAllocation.run e.1).getScopeIdNames e.2))).foldl
        (fun combined entry => combined ++ entry.2) []).map Prod.fst =
      List.range' o ((fs.map numScopes).sum) := by
  induction fs generalizing o with
  | nil => simp [withOffsets]
  | cons f rest ih =>
    simp only [withOffsets, List.map_cons, List.foldl_cons, List.nil_append, List.sum_cons]
    rw [foldl_append_init, List.map_append, ih, ids_shifted, List.range'_append_1, Nat.add_comm]

theorem sum_keys_eq (visits : List FuncOp) :
    ((Map.keys (construct visits).funcScopeIdMap).map numScopes).sum =
      ∑ g in visits.toFinset, numScopes g := by
  obtain ⟨hnd, _, hk, _⟩ := walkInv_construct visits
  rw [← List.sum_toFinset _ hnd]
  congr 1
  ext f
  simp [hk f]

end ModuleScopeIdAllocation

/-! ## Bounds on recorded ids -/

theorem recorded_id_of_name (funcOp : FuncOp) (op : RecordOp) (i : Nat)
    (h : Map.lookup (ScopeIdAllocation.run funcOp).opToIdMap op = some i) :
    Map.lookup (ScopeIdAllocation.run funcOp).nameToIdMap op.name = some i :=
  (ScopeIdAllocation.inv_run funcOp).recorded op i h

theorem name_id_below_numScopes (funcOp : FuncOp) (i : Nat) :
    (∃ N, Map.lookup (ScopeIdAllocation.run funcOp).nameToIdMap N = some i) ↔
      i < ModuleScopeIdAllocation.numScopes funcOp := by
  have h := ScopeIdAllocation.inv_run funcOp
  have hlen : ModuleScopeIdAllocation.numScopes funcOp = (ScopeIdAllocation.run funcOp).id :=
    ScopeIdAllocation.length_nameToIdMap h
  rw [hlen, ← List.mem_range, ← h.ids, List.mem_map]
  constructor
  · rintro ⟨N, hN⟩
    exact ⟨(N, i), Map.mem_of_lookup hN, rfl⟩
  · rintro ⟨⟨N, j⟩, hm, rfl⟩
    exact ⟨N, Map.lookup_of_mem h.keysNodup hm⟩

/-! ## Properties of the per-function allocation -/

/-- C1: the name-to-id map of `run` has one entry per name and is injective,
the id-to-name map has one entry per id and is its exact inverse, and both
have the same number of entries. -/
theorem run_nameToId_injective_inverse (funcOp : FuncOp) :
    (Map.keys (ScopeIdAllocation.run funcOp).nameToIdMap).Nodup ∧
    (Map.keys (ScopeIdAllocation.run funcOp).idToNameMap).Nodup ∧
    (∀ N₁ N₂ i, Map.lookup (ScopeIdAllocation.run funcOp).nameToIdMap N₁ = some i →
      Map.lookup (ScopeIdAllocation.run funcOp).nameToIdMap N₂ = some i → N₁ = N₂) ∧
    (∀ N i, Map.lookup (ScopeIdAllocation.run funcOp).idToNameMap i = some N ↔
      Map.lookup (ScopeIdAllocation.run funcOp).nameToIdMap N = some i) ∧
    Map.size (ScopeIdAllocation.run funcOp).idToNameMap =
      Map.size (ScopeIdAllocation.run funcOp).nameToIdMap := by
  have h := ScopeIdAllocation.inv_run funcOp
  have hk2 : (Map.keys (ScopeIdAllocation.run funcOp).idToNameMap).Nodup := by
    rw [h.inverse]
    have : Map.keys ((ScopeIdAllocation.run funcOp).nameToIdMap.map Prod.swap) =
        (ScopeIdAllocation.run funcOp).nameToIdMap.map Prod.snd := by
      simp [Map.keys, List.map_map, Function.comp_def]
    rw [this, h.ids]
    exact List.nodup_range _
  have hinv : ∀ N i, Map.lookup (ScopeIdAllocation.run funcOp).idToNameMap i = some N ↔
      Map.lookup (ScopeIdAllocation.run funcOp).nameToIdMap N = some i := by
    intro N i
    constructor
    · intro e
      have hm := Map.mem_of_lookup e
      rw [h.inverse, List.mem_map] at hm
      obtain ⟨⟨a, b⟩, hab, hsw⟩ := hm
      simp only [Prod.swap, Prod.mk.injEq] at hsw
      obtain ⟨rfl, rfl⟩ := hsw
      exact Map.lookup_of_mem h.keysNodup hab
    · intro e
      apply Map.lookup_of_mem hk2
      rw [h.inverse, List.mem_map]
      exact ⟨(N, i), Map.mem_of_lookup e, rfl⟩
  refine ⟨h.keysNodup, hk2, ?_, hinv, ?_⟩
  · intro N₁ N₂ i h1 h2
    have e1 := (hinv N₁ i).2 h1
    have e2 := (hinv N₂ i).2 h2
    rw [e1] at e2
    exact Option.some.inj e2
  · rw [h.inverse]
    simp [Map.size]

/-- C2: the ids that `run` assigns are exactly the numbers below `numScopes`,
the number of entries of the name-to-id map; without a start marker there is
no entry and the range is empty. -/
theorem run_ids_contiguous (funcOp : FuncOp) :
    (∀ i, (∃ N, Map.lookup (ScopeIdAllocation.run funcOp).nameToIdMap N = some i) ↔
      i < Map.size (ScopeIdAllocation.run funcOp).nameToIdMap) ∧
    ((∀ op ∈ funcOp.recordOps, op.isStart = false) →
      Map.size (ScopeIdAllocation.run funcOp).nameToIdMap = 0) := by
  have h := ScopeIdAllocation.inv_run funcOp
  have hlen : Map.size (ScopeIdAllocation.run funcOp).nameToIdMap =
      (ScopeIdAllocation.run funcOp).id := ScopeIdAllocation.length_nameToIdMap h
  constructor
  · intro i
    rw [hlen, ← List.mem_range, ← h.ids, List.mem_map]
    constructor
    · rintro ⟨N, hN⟩
      exact ⟨(N, i), Map.mem_of_lookup hN, rfl⟩
    · rintro ⟨⟨N, j⟩, hm, rfl⟩
      exact ⟨N, Map.lookup_of_mem h.keysNodup hm⟩
  · intro hno
    have hk : ∀ N, N ∉ Map.keys (ScopeIdAllocation.run funcOp).nameToIdMap := by
      intro N hN
      have := (ScopeIdAllocation.mem_keys_foldl funcOp.recordOps ScopeIdAllocation.inv_empty N).1 hN
      rcases this with h1 | h1
      · simp [ScopeIdAllocation.empty, Map.keys] at h1
      · obtain ⟨op, hop, hst, _⟩ := ScopeIdAllocation.mem_startNames.1 h1
        rw [hno op hop] at hst
        cases hst
    have : Map.keys (ScopeIdAllocation.run funcOp).nameToIdMap = [] :=
      List.eq_nil_iff_forall_not_mem.2 hk
    have := congrArg List.length this
    simpa [Map.keys, Map.size] using this

/-- C3: a name has an id after `run` exactly when some start marker carries it;
the id is the number of distinct names that occur in a start marker before the
first start marker of that name; and the name-to-id map is the one obtained
from the start markers alone. -/
theorem run_id_iff_started (funcOp : FuncOp) (N : String) :
    ((∃ i, Map.lookup (ScopeIdAllocation.run funcOp).nameToIdMap N = some i) ↔
      ∃ op ∈ funcOp.recordOps, op.isStart = true ∧ op.name = N) ∧
    (∀ i, Map.lookup (ScopeIdAllocation.run funcOp).nameToIdMap N = some i →
      i = (((ScopeIdAllocation.startNames funcOp.recordOps).takeWhile
        (fun x => decide (x ≠ N))).toFinset).card) ∧
    (ScopeIdAllocation.run funcOp).nameToIdMap =
      (ScopeIdAllocation.run
        ⟨funcOp.loc, funcOp.recordOps.filter (fun op => op.isStart)⟩).nameToIdMap := by
  have hmem : N ∈ Map.keys (ScopeIdAllocation.run funcOp).nameToIdMap ↔
      N ∈ ScopeIdAllocation.startNames funcOp.recordOps := by
    have := ScopeIdAllocation.mem_keys_foldl funcOp.recordOps ScopeIdAllocation.inv_empty N
    simpa [ScopeIdAllocation.empty, Map.keys] using this
  have hsome : (∃ i, Map.lookup (ScopeIdAllocation.run funcOp).nameToIdMap N = some i) ↔
      N ∈ Map.keys (ScopeIdAllocation.run funcOp).nameToIdMap := by
    rw [← not_iff_not, ← Map.lookup_eq_none_iff]
    cases Map.lookup (ScopeIdAllocation.run funcOp).nameToIdMap N <;> simp
  refine ⟨?_, ?_, ?_⟩
  · rw [hsome, hmem, ScopeIdAllocation.mem_startNames]
  · intro i hi
    have hst : N ∈ ScopeIdAllocation.startNames funcOp.recordOps := hmem.1 (hsome.1 ⟨i, hi⟩)
    have := ScopeIdAllocation.lookup_foldl_fresh funcOp.recordOps ScopeIdAllocation.inv_empty
      (N := N) (by simp [ScopeIdAllocation.empty, Map.keys]) hst
    have e : Map.lookup (ScopeIdAllocation.run funcOp).nameToIdMap N = some
        ((([] : List String).toFinset ∪ ((ScopeIdAllocation.startNames funcOp.recordOps).takeWhile
          (fun x => decide (x ≠ N))).toFinset).card) := this
    rw [hi, List.toFinset_nil, Finset.empty_union] at e
    exact Option.some.inj e
  · exact ScopeIdAllocation.foldl_filter_nameToIdMap funcOp.recordOps ScopeIdAllocation.inv_empty
      ScopeIdAllocation.inv_empty rfl

/-- C4: every instruction that `run` records in the instruction-to-id map is
recorded with the id that the name-to-id map holds for its scope name, so two
recorded markers of one name (a start and the end that closes it) carry the
same id. -/
theorem run_recorded_id_eq_name_id (funcOp : FuncOp) :
    (∀ op i, Map.lookup (ScopeIdAllocation.run funcOp).opToIdMap op = some i →
      Map.lookup (ScopeIdAllocation.run funcOp).nameToIdMap op.name = some i) ∧
    (∀ op₁ op₂ i j, Map.lookup (ScopeIdAllocation.run funcOp).opToIdMap op₁ = some i →
      Map.lookup (ScopeIdAllocation.run funcOp).opToIdMap op₂ = some j →
      op₁.name = op₂.name → i = j) := by
  have h := ScopeIdAllocation.inv_run funcOp
  refine ⟨h.recorded, ?_⟩
  intro op₁ op₂ i j h1 h2 hn
  have e1 := h.recorded op₁ i h1
  have e2 := h.recorded op₂ j h2
  rw [hn, e2] at e1
  exact (Option.some.inj e1).symm

/-- Witness for C4 on `start(A), end(A)`: the end marker is recorded with the
id 0 of `A`. -/
theorem run_recorded_id_eq_name_id_witness :
    Map.lookup (ScopeIdAllocation.run ⟨0, [⟨1, "A", true⟩, ⟨2, "A", false⟩]⟩).opToIdMap
        ⟨2, "A", false⟩ = some 0 ∧
      Map.lookup (ScopeIdAllocation.run ⟨0, [⟨1, "A", true⟩, ⟨2, "A", false⟩]⟩).nameToIdMap
        "A" = some 0 :=
  ⟨by decide, (run_recorded_id_eq_name_id ⟨0, [⟨1, "A", true⟩, ⟨2, "A", false⟩]⟩).1
    ⟨2, "A", false⟩ 0 (by decide)⟩

/-- C5: `run` handles every marker of the walk. A marker met in a state that
rejects it (a start whose name is active, an end whose name is not) is left out
of the instruction-to-id map and has exactly one diagnostic anchored at it;
every other marker is recorded and has no diagnostic anchored at it. So each
marker is recorded or reported, never both, and the recorded instructions and
the instruction-anchored diagnostics together number as many as the markers. -/
theorem run_records_or_reports (funcOp : FuncOp) (hnd : funcOp.recordOps.Nodup) :
    (∀ pre op post, funcOp.recordOps = pre ++ op :: post →
      (ScopeIdAllocation.rejects (pre.foldl ScopeIdAllocation.visit ScopeIdAllocation.empty) op
          = true →
        Map.contains (ScopeIdAllocation.run funcOp).opToIdMap op = false ∧
        ScopeIdAllocation.anchoredAt op (ScopeIdAllocation.run funcOp).diagnostics =
          [ScopeIdAllocation.defectOf op]) ∧
      (ScopeIdAllocation.rejects (pre.foldl ScopeIdAllocation.visit ScopeIdAllocation.empty) op
          = false →
        Map.contains (ScopeIdAllocation.run funcOp).opToIdMap op = true ∧
        ScopeIdAllocation.anchoredAt op (ScopeIdAllocation.run funcOp).diagnostics = [])) ∧
    (∀ op ∈ funcOp.recordOps,
      (Map.contains (ScopeIdAllocation.run funcOp).opToIdMap op = true ∧
        (ScopeIdAllocation.anchoredAt op (ScopeIdAllocation.run funcOp).diagnostics).length = 0) ∨
      (Map.contains (ScopeIdAllocation.run funcOp).opToIdMap op = false ∧
        (ScopeIdAllocation.anchoredAt op (ScopeIdAllocation.run funcOp).diagnostics).length
          = 1)) ∧
    Map.size (ScopeIdAllocation.run funcOp).opToIdMap +
        (ScopeIdAllocation.atRecordOps (ScopeIdAllocation.run funcOp).diagnostics).length =
      funcOp.recordOps.length := by
  have hsplit : ∀ pre op post, funcOp.recordOps = pre ++ op :: post →
      (ScopeIdAllocation.rejects (pre.foldl ScopeIdAllocation.visit ScopeIdAllocation.empty) op
          = true →
        Map.contains (ScopeIdAllocation.run funcOp).opToIdMap op = false ∧
        ScopeIdAllocation.anchoredAt op (ScopeIdAllocation.run funcOp).diagnostics =
          [ScopeIdAllocation.defectOf op]) ∧
      (ScopeIdAllocation.rejects (pre.foldl ScopeIdAllocation.visit ScopeIdAllocation.empty) op
          = false →
        Map.contains (ScopeIdAllocation.run funcOp).opToIdMap op = true ∧
        ScopeIdAllocation.anchoredAt op (ScopeIdAllocation.run funcOp).diagnostics = []) := by
    intro pre op post hs
    obtain ⟨a, b⟩ := ScopeIdAllocation.scan_at_marker hnd hs
    obtain ⟨c, d⟩ := ScopeIdAllocation.prefix_fresh hnd hs
    constructor
    · intro hr
      obtain ⟨h1, h2⟩ := ScopeIdAllocation.visit_of_rejects hr
      constructor
      · rw [Map.contains_eq_false_iff, a, h1, c]
      · rw [b, h2, ScopeIdAllocation.anchoredAt_append, d]
        simp [ScopeIdAllocation.anchoredAt, ScopeIdAllocation.recordAnchor_defectOf]
    · intro hr
      obtain ⟨⟨v, h1⟩, h2⟩ := ScopeIdAllocation.visit_of_not_rejects hr
      constructor
      · rw [Map.contains_eq_true_iff, a, h1, Map.lookup_set]
        exact ⟨v, if_pos rfl⟩
      · rw [b, h2, d]
  refine ⟨hsplit, ?_, ?_⟩
  · intro op hop
    obtain ⟨pre, post, hs⟩ := List.append_of_mem hop
    obtain ⟨h1, h2⟩ := hsplit pre op post hs
    cases hr : ScopeIdAllocation.rejects
        (pre.foldl ScopeIdAllocation.visit ScopeIdAllocation.empty) op with
    | true =>
      obtain ⟨x, y⟩ := h1 hr
      exact Or.inr ⟨x, by rw [y]; rfl⟩
    | false =>
      obtain ⟨x, y⟩ := h2 hr
      exact Or.inl ⟨x, by rw [y]; rfl⟩
  · have h := ScopeIdAllocation.foldl_count funcOp.recordOps (s := ScopeIdAllocation.empty) hnd
      (by intro x _; rfl)
    have e : ScopeIdAllocation.atRecordOps (ScopeIdAllocation.run funcOp).diagnostics =
        ScopeIdAllocation.atRecordOps (ScopeIdAllocation.scan funcOp).diagnostics := by
      show ScopeIdAllocation.atRecordOps ((ScopeIdAllocation.scan funcOp).diagnostics ++
        ScopeIdAllocation.unclosed funcOp (ScopeIdAllocation.scan funcOp)) = _
      rw [ScopeIdAllocation.atRecordOps_append, ScopeIdAllocation.atRecordOps_unclosed,
        List.append_nil]
    rw [e]
    simpa [ScopeIdAllocation.empty, Map.size, ScopeIdAllocation.atRecordOps] using h

/-- Witness for C5 on `start(A), start(A), end(B), end(A)`: two instructions are
recorded and two are reported. -/
theorem run_records_or_reports_witness :
    ([⟨1, "A", true⟩, ⟨2, "A", true⟩, ⟨3, "B", false⟩, ⟨4, "A", false⟩] : List RecordOp).Nodup ∧
      Map.size (ScopeIdAllocation.run
          ⟨0, [⟨1, "A", true⟩, ⟨2, "A", true⟩, ⟨3, "B", false⟩, ⟨4, "A", false⟩]⟩).opToIdMap +
        (ScopeIdAllocation.atRecordOps (ScopeIdAllocation.run
          ⟨0, [⟨1, "A", true⟩, ⟨2, "A", true⟩, ⟨3, "B", false⟩,
            ⟨4, "A", false⟩]⟩).diagnostics).length = 4 :=
  ⟨by decide, (run_records_or_reports
    ⟨0, [⟨1, "A", true⟩, ⟨2, "A", true⟩, ⟨3, "B", false⟩, ⟨4, "A", false⟩]⟩ (by decide)).2.2⟩

/-! ## Properties of the module-level allocation -/

/-- C6: the id ranges `[offset(f), offset(f) + numScopes(f))` of two distinct
visited functions are disjoint. -/
theorem module_ranges_disjoint (visits : List FuncOp) (f g : FuncOp) (hf : f ∈ visits)
    (hg : g ∈ visits) (hne : f ≠ g) :
    Disjoint
      (Finset.Ico ((ModuleScopeIdAllocation.construct visits).offset f)
        ((ModuleScopeIdAllocation.construct visits).offset f +
          ModuleScopeIdAllocation.numScopes f))
      (Finset.Ico ((ModuleScopeIdAllocation.construct visits).offset g)
        ((ModuleScopeIdAllocation.construct visits).offset g +
          ModuleScopeIdAllocation.numScopes g)) := by
  obtain ⟨hnd, hoff, hk, _⟩ := ModuleScopeIdAllocation.walkInv_construct visits
  have hsome : ∀ x, x ∈ visits → ((x, (ModuleScopeIdAllocation.construct visits).offset x) ∈
      (ModuleScopeIdAllocation.construct visits).funcScopeIdMap) := by
    intro x hx
    cases hl : Map.lookup (ModuleScopeIdAllocation.construct visits).funcScopeIdMap x with
    | none => exact absurd ((hk x).2 hx) ((Map.lookup_eq_none_iff _ _).1 hl)
    | some o =>
      have : (ModuleScopeIdAllocation.construct visits).offset x = o := by
        simp [ModuleScopeIdAllocation.offset, Map.lookupD, hl]
      rw [this]
      exact Map.mem_of_lookup hl
  have hp := (ModuleScopeIdAllocation.withOffsets_pairwise 0
    (Map.keys (ModuleScopeIdAllocation.construct visits).funcScopeIdMap)).1
  rw [← hoff] at hp
  have hsym : Symmetric (fun a b : FuncOp × Nat =>
      a.2 + ModuleScopeIdAllocation.numScopes a.1 ≤ b.2 ∨
        b.2 + ModuleScopeIdAllocation.numScopes b.1 ≤ a.2) := fun _ _ h => h.symm
  have hor := List.Pairwise.forall hsym (hp.imp (fun h => Or.inl h)) (hsome f hf) (hsome g hg)
    (fun e => hne (congrArg Prod.fst e))
  rw [Finset.disjoint_left]
  intro i hi hj
  rw [Finset.mem_Ico] at hi hj
  simp only at hor
  omega

/-- Witness for C6: two functions that both use the scope name `A`. -/
theorem module_ranges_disjoint_witness :
    (⟨0, [⟨1, "A", true⟩, ⟨2, "A", false⟩]⟩ : FuncOp) ≠ ⟨1, [⟨3, "A", true⟩]⟩ ∧
    Disjoint
      (Finset.Ico
        ((ModuleScopeIdAllocation.construct
          [⟨0, [⟨1, "A", true⟩, ⟨2, "A", false⟩]⟩, ⟨1, [⟨3, "A", true⟩]⟩]).offset
            ⟨0, [⟨1, "A", true⟩, ⟨2, "A", false⟩]⟩)
        ((ModuleScopeIdAllocation.construct
          [⟨0, [⟨1, "A", true⟩, ⟨2, "A", false⟩]⟩, ⟨1, [⟨3, "A", true⟩]⟩]).offset
            ⟨0, [⟨1, "A", true⟩, ⟨2, "A", false⟩]⟩ +
          ModuleScopeIdAllocation.numScopes ⟨0, [⟨1, "A", true⟩, ⟨2, "A", false⟩]⟩))
      (Finset.Ico
        ((ModuleScopeIdAllocation.construct
          [⟨0, [⟨1, "A", true⟩, ⟨2, "A", false⟩]⟩, ⟨1, [⟨3, "A", true⟩]⟩]).offset
            ⟨1, [⟨3, "A", true⟩]⟩)
        ((ModuleScopeIdAllocation.construct
          [⟨0, [⟨1, "A", true⟩, ⟨2, "A", false⟩]⟩, ⟨1, [⟨3, "A", true⟩]⟩]).offset
            ⟨1, [⟨3, "A", true⟩]⟩ +
          ModuleScopeIdAllocation.numScopes ⟨1, [⟨3, "A", true⟩]⟩)) :=
  ⟨by decide, module_ranges_disjoint
    [⟨0, [⟨1, "A", true⟩, ⟨2, "A", false⟩]⟩, ⟨1, [⟨3, "A", true⟩]⟩]
    ⟨0, [⟨1, "A", true⟩, ⟨2, "A", false⟩]⟩ ⟨1, [⟨3, "A", true⟩]⟩
    (by decide) (by decide) (by decide)⟩

/-- C7: the offset stored for a visited function is the sum of `numScopes` over
the distinct functions visited before its first visit; the function visited
first has offset 0. -/
theorem module_offset_eq_sum_before (visits : List FuncOp) (f : FuncOp) (hf : f ∈ visits) :
    Map.lookup (ModuleScopeIdAllocation.construct visits).funcScopeIdMap f =
        some (∑ g in (visits.takeWhile (fun x => decide (x ≠ f))).toFinset,
          ModuleScopeIdAllocation.numScopes g) ∧
      (visits.head? = some f →
        Map.lookup (ModuleScopeIdAllocation.construct visits).funcScopeIdMap f = some 0) := by
  have h := ModuleScopeIdAllocation.lookup_walk_fresh visits ModuleScopeIdAllocation.walkInv_empty
    (f := f) (by simp [ModuleScopeIdAllocation.empty, Map.keys]) hf
  have e : Map.lookup (ModuleScopeIdAllocation.construct visits).funcScopeIdMap f =
      some (∑ g in (visits.takeWhile (fun x => decide (x ≠ f))).toFinset,
        ModuleScopeIdAllocation.numScopes g) := by
    rw [(ModuleScopeIdAllocation.construct_fields visits).2.1, h]
    simp [ModuleScopeIdAllocation.empty, Map.keys]
  refine ⟨e, ?_⟩
  intro hhead
  rw [e]
  cases visits with
  | nil => simp at hhead
  | cons x rest =>
    simp only [List.head?_cons, Option.some.injEq] at hhead
    subst hhead
    simp [List.takeWhile_cons]

/-- Witness for C7: in the walk `f, g, f, h` the offset of `h` is
`numScopes f + numScopes g = 3`. -/
theorem module_offset_eq_sum_before_witness :
    Map.lookup (ModuleScopeIdAllocation.construct
      [⟨0, [⟨1, "A", true⟩, ⟨2, "B", true⟩]⟩, ⟨1, [⟨3, "A", true⟩]⟩,
        ⟨0, [⟨1, "A", true⟩, ⟨2, "B", true⟩]⟩, ⟨2, []⟩]).funcScopeIdMap ⟨2, []⟩ = some 3 :=
  (module_offset_eq_sum_before
    [⟨0, [⟨1, "A", true⟩, ⟨2, "B", true⟩]⟩, ⟨1, [⟨3, "A", true⟩]⟩,
      ⟨0, [⟨1, "A", true⟩, ⟨2, "B", true⟩]⟩, ⟨2, []⟩] ⟨2, []⟩ (by decide)).1.trans (by decide)

/-- C8: the ids of the whole-module name list are pairwise distinct and are
exactly the numbers below the sum of `numScopes` over the visited functions. -/
theorem module_ids_dense (visits : List FuncOp) :
    ((ModuleScopeIdAllocation.construct visits).getScopeIdNames.map Prod.fst).Nodup ∧
      ∀ i, i ∈ (ModuleScopeIdAllocation.construct visits).getScopeIdNames.map Prod.fst ↔
        i < ∑ g in visits.toFinset, ModuleScopeIdAllocation.numScopes g := by
  obtain ⟨_, hoff, _, _⟩ := ModuleScopeIdAllocation.walkInv_construct visits
  obtain ⟨_, hb, hc⟩ := ModuleScopeIdAllocation.construct_fields visits
  have hids : (ModuleScopeIdAllocation.construct visits).getScopeIdNames.map Prod.fst =
      List.range' 0 (∑ g in visits.toFinset, ModuleScopeIdAllocation.numScopes g) := by
    rw [← ModuleScopeIdAllocation.sum_keys_eq, ← ModuleScopeIdAllocation.ids_withOffsets, ← hoff]
    unfold ModuleScopeIdAllocation.getScopeIdNames
    rw [hc, hb]
  rw [hids]
  refine ⟨List.nodup_range' _ _, ?_⟩
  intro i
  rw [List.mem_range'_1]
  omega

/-- C9: for an instruction that the allocation of its enclosing, visited
function recorded with per-function id `i`, the module-level `getOpScopeId`
returns the function's offset plus `i`, a number of the function's range. -/
theorem module_getOpScopeId_eq (visits : List FuncOp) (getParentOfType : RecordOp → FuncOp)
    (op : RecordOp) (i : Nat) (hf : getParentOfType op ∈ visits)
    (hrec : Map.lookup (ScopeIdAllocation.run (getParentOfType op)).opToIdMap op = some i) :
    (ScopeIdAllocation.run (getParentOfType op)).getOpScopeId op = i ∧
    (ModuleScopeIdAllocation.construct visits).getOpScopeId getParentOfType op =
      (ModuleScopeIdAllocation.construct visits).offset (getParentOfType op) + i ∧
    (ModuleScopeIdAllocation.construct visits).offset (getParentOfType op) ≤
      (ModuleScopeIdAllocation.construct visits).getOpScopeId getParentOfType op ∧
    (ModuleScopeIdAllocation.construct visits).getOpScopeId getParentOfType op <
      (ModuleScopeIdAllocation.construct visits).offset (getParentOfType op) +
        ModuleScopeIdAllocation.numScopes (getParentOfType op) := by
  obtain ⟨_, _, _, hmemo, _⟩ := ModuleScopeIdAllocation.walkInv_construct visits
  have hper : (ScopeIdAllocation.run (getParentOfType op)).getOpScopeId op = i := by
    simp [ScopeIdAllocation.getOpScopeId, Map.lookupD, hrec]
  have hval : (ModuleScopeIdAllocation.construct visits).getOpScopeId getParentOfType op =
      (ModuleScopeIdAllocation.construct visits).offset (getParentOfType op) + i := by
    unfold ModuleScopeIdAllocation.getOpScopeId ModuleScopeIdAllocation.offset
    simp only
    rw [hmemo _ hf, hper, Nat.add_comm]
  have hlt : i < ModuleScopeIdAllocation.numScopes (getParentOfType op) := by
    have h1 := (recorded_id_of_name (getParentOfType op)) op i hrec
    exact (name_id_below_numScopes (getParentOfType op) i).1 ⟨op.name, h1⟩
  refine ⟨hper, hval, ?_, ?_⟩
  · rw [hval]; exact Nat.le_add_right _ _
  · rw [hval]; exact Nat.add_lt_add_left hlt _

/-- Witness for C9: the end marker of the second function visited, whose
offset is 2 and whose per-function id is 0. -/
theorem module_getOpScopeId_eq_witness :
    (ModuleScopeIdAllocation.construct
      [⟨0, [⟨1, "A", true⟩, ⟨2, "B", true⟩]⟩, ⟨1, [⟨3, "A", true⟩, ⟨4, "A", false⟩]⟩]).getOpScopeId
        (fun _ => ⟨1, [⟨3, "A", true⟩, ⟨4, "A", false⟩]⟩) ⟨4, "A", false⟩ =
      (ModuleScopeIdAllocation.construct
        [⟨0, [⟨1, "A", true⟩, ⟨2, "B", true⟩]⟩, ⟨1, [⟨3, "A", true⟩, ⟨4, "A", false⟩]⟩]).offset
          ⟨1, [⟨3, "A", true⟩, ⟨4, "A", false⟩]⟩ + 0 :=
  (module_getOpScopeId_eq
    [⟨0, [⟨1, "A", true⟩, ⟨2, "B", true⟩]⟩, ⟨1, [⟨3, "A", true⟩, ⟨4, "A", false⟩]⟩]
    (fun _ => ⟨1, [⟨3, "A", true⟩, ⟨4, "A", false⟩]⟩) ⟨4, "A", false⟩ 0
    (by decide) (by decide)).2.1

/-- C10: the name list that `getScopeIdNames(f)` returns for a visited function
is the function's per-function list with the function's offset added to every
id: same length, same names in the same order. -/
theorem module_names_of_func (visits : List FuncOp) (f : FuncOp) (hf : f ∈ visits) :
    (ModuleScopeIdAllocation.construct visits).getScopeIdNamesOf f =
        (ScopeIdAllocation.run f).getScopeIdNames.map
          (fun p => (p.1 + (ModuleScopeIdAllocation.construct visits).offset f, p.2)) ∧
      ((ModuleScopeIdAllocation.construct visits).getScopeIdNamesOf f).length =
        (ScopeIdAllocation.run f).getScopeIdNames.length ∧
      ((ModuleScopeIdAllocation.construct visits).getScopeIdNamesOf f).map Prod.snd =
        (ScopeIdAllocation.run f).getScopeIdNames.map Prod.snd := by
  obtain ⟨_, _, hk, _⟩ := ModuleScopeIdAllocation.walkInv_construct visits
  obtain ⟨_, hb, hc⟩ := ModuleScopeIdAllocation.construct_fields visits
  have hmain : (ModuleScopeIdAllocation.construct visits).getScopeIdNamesOf f =
      (ScopeIdAllocation.run f).getScopeIdNames.map
        (fun p => (p.1 + (ModuleScopeIdAllocation.construct visits).offset f, p.2)) := by
    cases hl : Map.lookup (ModuleScopeIdAllocation.construct visits).funcScopeIdMap f with
    | none => exact absurd ((hk f).2 hf) ((Map.lookup_eq_none_iff _ _).1 hl)
    | some o =>
      have ho : (ModuleScopeIdAllocation.construct visits).offset f = o := by
        simp [ModuleScopeIdAllocation.offset, Map.lookupD, hl]
      rw [hb] at hl
      rw [ho]
      unfold ModuleScopeIdAllocation.getScopeIdNamesOf
      rw [Map.lookupD, hc, ModuleScopeIdAllocation.lookup_map_entry _
        (fun e => ModuleScopeIdAllocation.shifted (ScopeIdAllocation.run e.1).getScopeIdNames e.2),
        hl]
      rfl
  refine ⟨hmain, ?_, ?_⟩
  · rw [hmain, List.length_map]
  · rw [hmain, List.map_map]
    rfl

/-- Witness for C10: the second function visited, whose offset is 2. -/
theorem module_names_of_func_witness :
    (ModuleScopeIdAllocation.construct
      [⟨0, [⟨1, "A", true⟩, ⟨2, "B", true⟩]⟩, ⟨1, [⟨3, "A", true⟩, ⟨4, "A", false⟩]⟩]).getScopeIdNamesOf
        ⟨1, [⟨3, "A", true⟩, ⟨4, "A", false⟩]⟩ = [(2, "A")] :=
  (module_names_of_func
    [⟨0, [⟨1, "A", true⟩, ⟨2, "B", true⟩]⟩, ⟨1, [⟨3, "A", true⟩, ⟨4, "A", false⟩]⟩]
    ⟨1, [⟨3, "A", true⟩, ⟨4, "A", false⟩]⟩ (by decide)).1.trans (by decide)

/-! ## The defects of the per-function scan -/

/-- C14: a start marker whose name is active adds the one diagnostic "already
open" at that marker and leaves every other part of the state as it was. For
`start(A), start(A)` the result has the single id 0 for `A`, held by the first
start, one "already open" diagnostic, and no entry for the second start. -/
theorem visit_start_of_open (s : ScopeIdAllocation) (op : RecordOp) (hst : op.isStart = true)
    (hopen : Map.contains s.activeScopes op.name = true) :
    ScopeIdAllocation.visit s op =
        { s with diagnostics := s.diagnostics ++ [Diagnostic.alreadyOpen op op.name] } ∧
      ∀ (loc a b : Nat) (A : String),
        ScopeIdAllocation.run ⟨loc, [⟨a, A, true⟩, ⟨b, A, true⟩]⟩ =
            ⟨[(A, 0)], [(A, 0)], 1, [(0, A)], [(⟨a, A, true⟩, 0)],
              [Diagnostic.alreadyOpen ⟨b, A, true⟩ A,
                Diagnostic.neverClosed ⟨loc, [⟨a, A, true⟩, ⟨b, A, true⟩]⟩ A]⟩ ∧
          (a ≠ b →
            Map.contains (ScopeIdAllocation.run ⟨loc, [⟨a, A, true⟩, ⟨b, A, true⟩]⟩).opToIdMap
              ⟨b, A, true⟩ = false) := by
  constructor
  · simp [ScopeIdAllocation.visit, hst, hopen]
  · intro loc a b A
    have h : ScopeIdAllocation.run ⟨loc, [⟨a, A, true⟩, ⟨b, A, true⟩]⟩ =
        ⟨[(A, 0)], [(A, 0)], 1, [(0, A)], [(⟨a, A, true⟩, 0)],
          [Diagnostic.alreadyOpen ⟨b, A, true⟩ A,
            Diagnostic.neverClosed ⟨loc, [⟨a, A, true⟩, ⟨b, A, true⟩]⟩ A]⟩ := by
      simp [ScopeIdAllocation.run, ScopeIdAllocation.scan, ScopeIdAllocation.visit,
        ScopeIdAllocation.assign, ScopeIdAllocation.unclosed, ScopeIdAllocation.empty,
        Map.contains, Map.lookup, Map.set, Map.lookupD, Map.size]
    refine ⟨h, ?_⟩
    intro hab
    rw [h]
    simp [Map.contains, Map.lookup, hab]

/-- Witness for C14: the second `start(A)` met in the state after the first. -/
theorem visit_start_of_open_witness :
    ScopeIdAllocation.visit (ScopeIdAllocation.visit ScopeIdAllocation.empty ⟨1, "A", true⟩)
        ⟨2, "A", true⟩ =
      { ScopeIdAllocation.visit ScopeIdAllocation.empty ⟨1, "A", true⟩ with
        diagnostics :=
          (ScopeIdAllocation.visit ScopeIdAllocation.empty ⟨1, "A", true⟩).diagnostics ++
            [Diagnostic.alreadyOpen ⟨2, "A", true⟩ "A"] } :=
  (visit_start_of_open (ScopeIdAllocation.visit ScopeIdAllocation.empty ⟨1, "A", true⟩)
    ⟨2, "A", true⟩ (by decide) (by decide)).1

/-- C15: an end marker whose name is not active adds the one diagnostic "not
opened or already closed" at that marker and leaves every other part of the
state as it was. For the single marker `end(A)` the result has no id, no
recorded instruction and that one diagnostic only. -/
theorem visit_end_of_not_open (s : ScopeIdAllocation) (op : RecordOp) (hst : op.isStart = false)
    (hclosed : Map.contains s.activeScopes op.name = false) :
    ScopeIdAllocation.visit s op =
        { s with diagnostics := s.diagnostics ++ [Diagnostic.notOpened op op.name] } ∧
      ∀ (loc a : Nat) (A : String),
        ScopeIdAllocation.run ⟨loc, [⟨a, A, false⟩]⟩ =
            ⟨[], [], 0, [], [], [Diagnostic.notOpened ⟨a, A, false⟩ A]⟩ ∧
          (ScopeIdAllocation.run ⟨loc, [⟨a, A, false⟩]⟩).getNumScopes = 0 := by
  constructor
  · simp [ScopeIdAllocation.visit, hst, hclosed]
  · intro loc a A
    have h : ScopeIdAllocation.run ⟨loc, [⟨a, A, false⟩]⟩ =
        ⟨[], [], 0, [], [], [Diagnostic.notOpened ⟨a, A, false⟩ A]⟩ := by
      simp [ScopeIdAllocation.run, ScopeIdAllocation.scan, ScopeIdAllocation.visit,
        ScopeIdAllocation.assign, ScopeIdAllocation.unclosed, ScopeIdAllocation.empty,
        Map.contains, Map.lookup, Map.set, Map.lookupD, Map.size]
    refine ⟨h, ?_⟩
    rw [h]
    rfl

/-- Witness for C15: `end(A)` met after `start(A), end(A)`, when `A` is closed
again. -/
theorem visit_end_of_not_open_witness :
    ScopeIdAllocation.visit
        (ScopeIdAllocation.scan ⟨0, [⟨1, "A", true⟩, ⟨2, "A", false⟩]⟩) ⟨3, "A", false⟩ =
      { ScopeIdAllocation.scan ⟨0, [⟨1, "A", true⟩, ⟨2, "A", false⟩]⟩ with
        diagnostics :=
          (ScopeIdAllocation.scan ⟨0, [⟨1, "A", true⟩, ⟨2, "A", false⟩]⟩).diagnostics ++
            [Diagnostic.notOpened ⟨3, "A", false⟩ "A"] } :=
  (visit_end_of_not_open (ScopeIdAllocation.scan ⟨0, [⟨1, "A", true⟩, ⟨2, "A", false⟩]⟩)
    ⟨3, "A", false⟩ (by decide) (by decide)).1

/-! ## Repeated visits and the order of the module list -/

namespace ModuleScopeIdAllocation

theorem nodeCallback_of_contains {m : ModuleScopeIdAllocation} {f : FuncOp}
    (h : Map.contains m.funcMap f = true) : nodeCallback m f = m := by
  simp [nodeCallback, h]

theorem contains_nodeCallback_self (m : ModuleScopeIdAllocation) (f : FuncOp) :
    Map.contains (nodeCallback m f).funcMap f = true := by
  cases h : Map.contains m.funcMap f with
  | true => rw [nodeCallback_of_contains h]; exact h
  | false =>
    have hl : Map.lookup m.funcMap f = none := (Map.contains_eq_false_iff _ _).1 h
    have e : (nodeCallback m f).funcMap = m.funcMap ++ [(f, ScopeIdAllocation.run f)] := by
      simp [nodeCallback, h, Map.tryEmplace]
    rw [e, Map.contains_eq_true_iff, Map.lookup_append_right _ hl]
    exact ⟨ScopeIdAllocation.run f, by simp [Map.lookup]⟩

theorem contains_nodeCallback_mono (m : ModuleScopeIdAllocation) (g : FuncOp) {f : FuncOp}
    (h : Map.contains m.funcMap f = true) : Map.contains (nodeCallback m g).funcMap f = true := by
  cases hg : Map.contains m.funcMap g with
  | true => rw [nodeCallback_of_contains hg]; exact h
  | false =>
    obtain ⟨v, hv⟩ := (Map.contains_eq_true_iff _ _).1 h
    have e : (nodeCallback m g).funcMap = m.funcMap ++ [(g, ScopeIdAllocation.run g)] := by
      simp [nodeCallback, hg, Map.tryEmplace]
    rw [e, Map.contains_eq_true_iff]
    exact ⟨v, Map.lookup_append_left _ hv⟩

theorem contains_walk_mono (vs : List FuncOp) {m : ModuleScopeIdAllocation} {f : FuncOp}
    (h : Map.contains m.funcMap f = true) :
    Map.contains (vs.foldl nodeCallback m).funcMap f = true := by
  induction vs generalizing m with
  | nil => exact h
  | cons g rest ih => exact ih (contains_nodeCallback_mono m g h)

theorem contains_walk_of_mem (vs : List FuncOp) (m : ModuleScopeIdAllocation) {f : FuncOp}
    (hf : f ∈ vs) : Map.contains (vs.foldl nodeCallback m).funcMap f = true := by
  induction vs generalizing m with
  | nil => simp at hf
  | cons g rest ih =>
    rcases List.mem_cons.1 hf with e | e
    · subst e
      exact contains_walk_mono rest (contains_nodeCallback_self m f)
    · exact ih (nodeCallback m g) e

theorem walk_remove_revisit (pre post : List FuncOp) (m : ModuleScopeIdAllocation) {f : FuncOp}
    (hf : f ∈ pre) :
    (pre ++ f :: post).foldl nodeCallback m = (pre ++ post).foldl nodeCallback m := by
  rw [List.foldl_append, List.foldl_append, List.foldl_cons,
    nodeCallback_of_contains (contains_walk_of_mem pre m hf)]

theorem keys_walk (vs : List FuncOp) {m : ModuleScopeIdAllocation} (hm : WalkInv m) :
    Map.keys (vs.foldl nodeCallback m).funcScopeIdMap =
      Map.keys m.funcScopeIdMap ++ firstVisitsFrom (Map.keys m.funcScopeIdMap) vs := by
  induction vs generalizing m with
  | nil => simp [firstVisitsFrom]
  | cons g rest ih =>
    rw [List.foldl_cons, ih (walkInv_nodeCallback hm g), keys_nodeCallback hm g]
    by_cases hg : g ∈ Map.keys m.funcScopeIdMap
    · simp [firstVisitsFrom, hg]
    · simp [firstVisitsFrom, hg]

theorem walk_firstVisitsFrom (vs : List FuncOp) {m : ModuleScopeIdAllocation} (hm : WalkInv m) :
    vs.foldl nodeCallback m =
      (firstVisitsFrom (Map.keys m.funcScopeIdMap) vs).foldl nodeCallback m := by
  induction vs generalizing m with
  | nil => rfl
  | cons g rest ih =>
    by_cases hg : g ∈ Map.keys m.funcScopeIdMap
    · have := ih hm
      simpa [firstVisitsFrom, hg, nodeCallback_of_mem hm hg] using this
    · have := ih (walkInv_nodeCallback hm g)
      rw [keys_nodeCallback hm g, if_neg hg] at this
      simpa [firstVisitsFrom, hg] using this

theorem keys_construct (visits : List FuncOp) :
    Map.keys (construct visits).funcScopeIdMap = firstVisits visits := by
  rw [(construct_fields visits).2.1, keys_walk visits walkInv_empty]
  simp [empty, Map.keys, firstVisits]

theorem construct_firstVisits (visits : List FuncOp) :
    construct visits = construct (firstVisits visits) := by
  have h := walk_firstVisitsFrom visits walkInv_empty
  have e : Map.keys empty.funcScopeIdMap = [] := rfl
  rw [e] at h
  show (Map.entries (visits.foldl nodeCallback empty).funcScopeIdMap).foldl precompute
      (visits.foldl nodeCallback empty) =
    (Map.entries ((firstVisits visits).foldl nodeCallback empty).funcScopeIdMap).foldl precompute
      ((firstVisits visits).foldl nodeCallback empty)
  rw [h]
  rfl

theorem firstVisits_nodup_mem (visits : List FuncOp) :
    (firstVisits visits).Nodup ∧ ∀ g, g ∈ firstVisits visits ↔ g ∈ visits := by
  obtain ⟨hnd, _, hk, _⟩ := walkInv_construct visits
  rw [keys_construct] at hnd hk
  exact ⟨hnd, hk⟩

theorem entry_offset {visits : List FuncOp} {e : FuncOp × Nat}
    (he : e ∈ (construct visits).funcScopeIdMap) : (construct visits).offset e.1 = e.2 := by
  obtain ⟨hnd, _⟩ := walkInv_construct visits
  have := Map.lookup_of_mem hnd (k := e.1) (v := e.2) he
  simp [offset, Map.lookupD, this]

theorem offset_mem {visits : List FuncOp} {f : FuncOp} (hf : f ∈ visits) :
    (f, (construct visits).offset f) ∈ (construct visits).funcScopeIdMap := by
  obtain ⟨_, _, hk, _⟩ := walkInv_construct visits
  cases hl : Map.lookup (construct visits).funcScopeIdMap f with
  | none => exact absurd ((hk f).2 hf) ((Map.lookup_eq_none_iff _ _).1 hl)
  | some o =>
    have : (construct visits).offset f = o := by simp [offset, Map.lookupD, hl]
    rw [this]
    exact Map.mem_of_lookup hl

theorem namesOf_entry {visits : List FuncOp} {e : FuncOp × Nat}
    (he : e ∈ (construct visits).funcScopeIdMap) :
    (construct visits).getScopeIdNamesOf e.1 =
      shifted (ScopeIdAllocation.run e.1).getScopeIdNames e.2 := by
  obtain ⟨hnd, _⟩ := walkInv_construct visits
  obtain ⟨_, hb, hc⟩ := construct_fields visits
  have hl := Map.lookup_of_mem hnd (k := e.1) (v := e.2) he
  rw [hb] at hl
  unfold getScopeIdNamesOf
  rw [Map.lookupD, hc, lookup_map_entry _
    (fun e => shifted (ScopeIdAllocation.run e.1).getScopeIdNames e.2), hl]
  rfl

theorem foldl_append_eq_flatten (l : Map FuncOp (List (Nat × String))) :
    l.foldl (fun combined entry => combined ++ entry.2) [] = (l.map Prod.snd).flatten := by
  induction l with
  | nil => rfl
  | cons e rest ih =>
    rw [List.foldl_cons, foldl_append_init, ih]
    simp

theorem getScopeIdNames_eq_flatten (visits : List FuncOp) :
    (construct visits).getScopeIdNames =
      ((firstVisits visits).map (fun f => (construct visits).getScopeIdNamesOf f)).flatten := by
  obtain ⟨_, hb, hc⟩ := construct_fields visits
  have hk := keys_construct visits
  unfold getScopeIdNames
  rw [show Map.entries (construct visits).scopeIdNames = (construct visits).scopeIdNames from rfl,
    foldl_append_eq_flatten, ← hk, hc, ← hb]
  simp only [Map.keys, List.map_map]
  congr 1
  apply List.map_congr_left
  intro e he
  simp only [Function.comp]
  exact (namesOf_entry he).symm

theorem ids_construct (visits : List FuncOp) :
    (construct visits).getScopeIdNames.map Prod.fst =
      List.range' 0 (∑ g in visits.toFinset, numScopes g) := by
  obtain ⟨_, hoff, _, _⟩ := walkInv_construct visits
  obtain ⟨_, hb, hc⟩ := construct_fields visits
  rw [← sum_keys_eq, ← ids_withOffsets, ← hoff]
  unfold getScopeIdNames
  rw [hc, hb]

theorem offset_eq_sum (visits : List FuncOp) {f : FuncOp} (hf : f ∈ visits) :
    (construct visits).offset f =
      ∑ g in (visits.takeWhile (fun x => decide (x ≠ f))).toFinset, numScopes g := by
  have h := lookup_walk_fresh visits walkInv_empty (f := f) (by simp [empty, Map.keys]) hf
  rw [offset, Map.lookupD, (construct_fields visits).2.1, h]
  simp [empty, Map.keys]

theorem takeWhile_subset {l : List FuncOp} {f g : FuncOp}
    (hf : f ∈ l.takeWhile (fun x => decide (x ≠ g))) :
    ∀ x ∈ l.takeWhile (fun x => decide (x ≠ f)), x ∈ l.takeWhile (fun x => decide (x ≠ g)) := by
  induction l with
  | nil => simp at hf
  | cons a rest ih =>
    by_cases hag : a = g
    · simp [List.takeWhile_cons, hag] at hf
    · have e1 : List.takeWhile (fun x => decide (x ≠ g)) (a :: rest) =
          a :: List.takeWhile (fun x => decide (x ≠ g)) rest := by
        simp [List.takeWhile_cons, hag]
      rw [e1] at hf ⊢
      by_cases haf : a = f
      · intro x hx
        simp [List.takeWhile_cons, haf] at hx
      · have e2 : List.takeWhile (fun x => decide (x ≠ f)) (a :: rest) =
            a :: List.takeWhile (fun x => decide (x ≠ f)) rest := by
          simp [List.takeWhile_cons, haf]
        rw [e2]
        have hf2 : f ∈ List.takeWhile (fun x => decide (x ≠ g)) rest := by
          rcases List.mem_cons.1 hf with h | h
          · exact absurd h.symm haf
          · exact h
        intro x hx
        rcases List.mem_cons.1 hx with h | h
        · exact h ▸ List.mem_cons_self _ _
        · exact List.mem_cons_of_mem _ (ih hf2 x h)

theorem not_mem_takeWhile_self (l : List FuncOp) (f : FuncOp) :
    f ∉ l.takeWhile (fun x => decide (x ≠ f)) := by
  intro h
  have := List.mem_takeWhile_imp h
  simp at this

end ModuleScopeIdAllocation

/-- C11: the whole-module list of `getScopeIdNames()` is the concatenation of
the per-function module lists of the visited functions in the order of their
first visits, and along that order each function's range ends no later than
the next one's offset, so the function with the smaller offset comes first. -/
theorem module_names_in_traversal_order (visits : List FuncOp) :
    (ModuleScopeIdAllocation.construct visits).getScopeIdNames =
        ((ModuleScopeIdAllocation.firstVisits visits).map
          (fun f => (ModuleScopeIdAllocation.construct visits).getScopeIdNamesOf f)).flatten ∧
      (ModuleScopeIdAllocation.firstVisits visits).Pairwise
        (fun f g =>
          (ModuleScopeIdAllocation.construct visits).offset f +
              ModuleScopeIdAllocation.numScopes f ≤
            (ModuleScopeIdAllocation.construct visits).offset g) := by
  refine ⟨ModuleScopeIdAllocation.getScopeIdNames_eq_flatten visits, ?_⟩
  obtain ⟨_, hoff, _, _⟩ := ModuleScopeIdAllocation.walkInv_construct visits
  have hp := (ModuleScopeIdAllocation.withOffsets_pairwise 0
    (Map.keys (ModuleScopeIdAllocation.construct visits).funcScopeIdMap)).1
  rw [← hoff] at hp
  rw [← ModuleScopeIdAllocation.keys_construct, Map.keys, List.pairwise_map]
  refine hp.imp_of_mem ?_
  intro a b ha hb h
  rw [ModuleScopeIdAllocation.entry_offset ha, ModuleScopeIdAllocation.entry_offset hb]
  exact h

/-- C12: the node callback leaves the whole state (memoized allocations,
offsets and running counter) unchanged on a function already in `funcMap`;
a function visited earlier in the walk is in `funcMap`, so dropping a repeated
visit, or all of them, from the walk does not change the result. -/
theorem module_revisit_changes_nothing (pre post : List FuncOp) (f : FuncOp) (hf : f ∈ pre) :
    (∀ m : ModuleScopeIdAllocation, Map.contains m.funcMap f = true →
        ModuleScopeIdAllocation.nodeCallback m f = m) ∧
      ModuleScopeIdAllocation.nodeCallback
          (pre.foldl ModuleScopeIdAllocation.nodeCallback ModuleScopeIdAllocation.empty) f =
        pre.foldl ModuleScopeIdAllocation.nodeCallback ModuleScopeIdAllocation.empty ∧
      ModuleScopeIdAllocation.construct (pre ++ f :: post) =
        ModuleScopeIdAllocation.construct (pre ++ post) ∧
      ModuleScopeIdAllocation.construct (pre ++ f :: post) =
        ModuleScopeIdAllocation.construct
          (ModuleScopeIdAllocation.firstVisits (pre ++ f :: post)) ∧
      (ModuleScopeIdAllocation.firstVisits (pre ++ f :: post)).Nodup ∧
      ∀ g, g ∈ ModuleScopeIdAllocation.firstVisits (pre ++ f :: post) ↔ g ∈ pre ++ f :: post := by
  refine ⟨fun m h => ModuleScopeIdAllocation.nodeCallback_of_contains h,
    ModuleScopeIdAllocation.nodeCallback_of_contains
      (ModuleScopeIdAllocation.contains_walk_of_mem pre _ hf), ?_,
    ModuleScopeIdAllocation.construct_firstVisits _,
    (ModuleScopeIdAllocation.firstVisits_nodup_mem _).1,
    (ModuleScopeIdAllocation.firstVisits_nodup_mem _).2⟩
  show (Map.entries ((pre ++ f :: post).foldl ModuleScopeIdAllocation.nodeCallback
      ModuleScopeIdAllocation.empty).funcScopeIdMap).foldl ModuleScopeIdAllocation.precompute
      ((pre ++ f :: post).foldl ModuleScopeIdAllocation.nodeCallback
        ModuleScopeIdAllocation.empty) = _
  rw [ModuleScopeIdAllocation.walk_remove_revisit pre post _ hf]
  rfl

/-- Witness for C12: the walk `f, g, f` gives the result of the walk `f, g`. -/
theorem module_revisit_changes_nothing_witness :
    ModuleScopeIdAllocation.construct
        ([⟨0, [⟨1, "A", true⟩, ⟨2, "A", false⟩]⟩, ⟨1, [⟨3, "A", true⟩]⟩] ++
          ⟨0, [⟨1, "A", true⟩, ⟨2, "A", false⟩]⟩ :: []) =
      ModuleScopeIdAllocation.construct
        ([⟨0, [⟨1, "A", true⟩, ⟨2, "A", false⟩]⟩, ⟨1, [⟨3, "A", true⟩]⟩] ++ []) :=
  (module_revisit_changes_nothing
    [⟨0, [⟨1, "A", true⟩, ⟨2, "A", false⟩]⟩, ⟨1, [⟨3, "A", true⟩]⟩] []
    ⟨0, [⟨1, "A", true⟩, ⟨2, "A", false⟩]⟩ (by decide)).2.2.1

/-- C13 fails as stated: a function without scopes, visited first, has the
offset 0 of the function visited next. -/
theorem module_offsets_not_strict :
    (⟨0, []⟩ : FuncOp) ∈
        ([⟨0, []⟩, ⟨1, [⟨1, "A", true⟩]⟩] : List FuncOp).takeWhile
          (fun x => decide (x ≠ ⟨1, [⟨1, "A", true⟩]⟩)) ∧
      (⟨1, [⟨1, "A", true⟩]⟩ : FuncOp) ∈ ([⟨0, []⟩, ⟨1, [⟨1, "A", true⟩]⟩] : List FuncOp) ∧
      ¬ ((ModuleScopeIdAllocation.construct [⟨0, []⟩, ⟨1, [⟨1, "A", true⟩]⟩]).offset ⟨0, []⟩ <
        (ModuleScopeIdAllocation.construct [⟨0, []⟩, ⟨1, [⟨1, "A", true⟩]⟩]).offset
          ⟨1, [⟨1, "A", true⟩]⟩) := by
  decide

/-- C13, amended: if `f` is visited before the first visit of `g`, the range
of `f` ends at or before the offset of `g`; so the offsets do not decrease in
traversal order, and they increase strictly past a function that has a scope. -/
theorem module_offsets_monotone (visits : List FuncOp) (f g : FuncOp)
    (hf : f ∈ visits.takeWhile (fun x => decide (x ≠ g))) (hg : g ∈ visits) :
    (ModuleScopeIdAllocation.construct visits).offset f + ModuleScopeIdAllocation.numScopes f ≤
        (ModuleScopeIdAllocation.construct visits).offset g ∧
      (ModuleScopeIdAllocation.construct visits).offset f ≤
        (ModuleScopeIdAllocation.construct visits).offset g ∧
      (0 < ModuleScopeIdAllocation.numScopes f →
        (ModuleScopeIdAllocation.construct visits).offset f <
          (ModuleScopeIdAllocation.construct visits).offset g) := by
  have hfv : f ∈ visits := (List.takeWhile_sublist _).subset hf
  have hmain : (ModuleScopeIdAllocation.construct visits).offset f +
      ModuleScopeIdAllocation.numScopes f ≤ (ModuleScopeIdAllocation.construct visits).offset g := by
    rw [ModuleScopeIdAllocation.offset_eq_sum visits hfv,
      ModuleScopeIdAllocation.offset_eq_sum visits hg]
    have hnot : f ∉ (visits.takeWhile (fun x => decide (x ≠ f))).toFinset := by
      rw [List.mem_toFinset]
      exact ModuleScopeIdAllocation.not_mem_takeWhile_self visits f
    rw [Nat.add_comm, ← Finset.sum_insert hnot]
    apply Finset.sum_le_sum_of_subset
    intro x hx
    rw [Finset.mem_insert, List.mem_toFinset] at hx
    rw [List.mem_toFinset]
    rcases hx with rfl | hx
    · exact hf
    · exact ModuleScopeIdAllocation.takeWhile_subset hf x hx
  refine ⟨hmain, ?_, ?_⟩
  · omega
  · intro h
    omega

/-- Witness for C13, amended: in the walk `f, g` with one scope in `f` the
offset of `f` is below that of `g`. -/
theorem module_offsets_monotone_witness :
    (ModuleScopeIdAllocation.construct [⟨0, [⟨1, "A", true⟩]⟩, ⟨1, []⟩]).offset
        ⟨0, [⟨1, "A", true⟩]⟩ + ModuleScopeIdAllocation.numScopes ⟨0, [⟨1, "A", true⟩]⟩ ≤
      (ModuleScopeIdAllocation.construct [⟨0, [⟨1, "A", true⟩]⟩, ⟨1, []⟩]).offset ⟨1, []⟩ :=
  (module_offsets_monotone [⟨0, [⟨1, "A", true⟩]⟩, ⟨1, []⟩] ⟨0, [⟨1, "A", true⟩]⟩ ⟨1, []⟩
    (by decide) (by decide)).1

/-- C20: for an instruction that the allocation of its enclosing, visited
function recorded, the pair of its module-level id and its scope name is an
entry of that function's module list and of the whole-module list, no other
entry of the whole-module list has that id, and looking the id up in the
whole-module list yields the instruction's scope name. -/
theorem module_id_names_own_scope (visits : List FuncOp) (getParentOfType : RecordOp → FuncOp)
    (op : RecordOp) (i : Nat) (hf : getParentOfType op ∈ visits)
    (hrec : Map.lookup (ScopeIdAllocation.run (getParentOfType op)).opToIdMap op = some i) :
    ((ModuleScopeIdAllocation.construct visits).getOpScopeId getParentOfType op, op.name) ∈
        (ModuleScopeIdAllocation.construct visits).getScopeIdNamesOf (getParentOfType op) ∧
      ((ModuleScopeIdAllocation.construct visits).getOpScopeId getParentOfType op, op.name) ∈
        (ModuleScopeIdAllocation.construct visits).getScopeIdNames ∧
      (∀ e ∈ (ModuleScopeIdAllocation.construct visits).getScopeIdNames,
        e.1 = (ModuleScopeIdAllocation.construct visits).getOpScopeId getParentOfType op →
          e = ((ModuleScopeIdAllocation.construct visits).getOpScopeId getParentOfType op,
            op.name)) ∧
      Map.lookup (ModuleScopeIdAllocation.construct visits).getScopeIdNames
        ((ModuleScopeIdAllocation.construct visits).getOpScopeId getParentOfType op) =
          some op.name := by
  obtain ⟨_, _, _, hmemo, _⟩ := ModuleScopeIdAllocation.walkInv_construct visits
  have hinv := ScopeIdAllocation.inv_run (getParentOfType op)
  have hval : (ModuleScopeIdAllocation.construct visits).getOpScopeId getParentOfType op =
      i + (ModuleScopeIdAllocation.construct visits).offset (getParentOfType op) := by
    unfold ModuleScopeIdAllocation.getOpScopeId ModuleScopeIdAllocation.offset
    simp only
    rw [hmemo _ hf]
    simp [ScopeIdAllocation.getOpScopeId, Map.lookupD, hrec]
  have hper : (i, op.name) ∈ (ScopeIdAllocation.run (getParentOfType op)).getScopeIdNames := by
    have h1 := Map.mem_of_lookup (hinv.recorded op i hrec)
    unfold ScopeIdAllocation.getScopeIdNames
    rw [hinv.inverse, List.mem_map]
    exact ⟨(op.name, i), h1, rfl⟩
  have hent := ModuleScopeIdAllocation.offset_mem hf
  have hof : ((ModuleScopeIdAllocation.construct visits).getOpScopeId getParentOfType op,
      op.name) ∈ (ModuleScopeIdAllocation.construct visits).getScopeIdNamesOf
        (getParentOfType op) := by
    rw [ModuleScopeIdAllocation.namesOf_entry hent, hval]
    unfold ModuleScopeIdAllocation.shifted
    rw [List.mem_map]
    exact ⟨(i, op.name), hper, rfl⟩
  have hall : ((ModuleScopeIdAllocation.construct visits).getOpScopeId getParentOfType op,
      op.name) ∈ (ModuleScopeIdAllocation.construct visits).getScopeIdNames := by
    rw [ModuleScopeIdAllocation.getScopeIdNames_eq_flatten, List.mem_flatten]
    refine ⟨_, List.mem_map.2 ⟨getParentOfType op, ?_, rfl⟩, hof⟩
    exact ((ModuleScopeIdAllocation.firstVisits_nodup_mem visits).2 _).2 hf
  have hnd : (Map.keys (ModuleScopeIdAllocation.construct visits).getScopeIdNames).Nodup := by
    rw [Map.keys, ModuleScopeIdAllocation.ids_construct]
    exact List.nodup_range' _ _
  have hlook := Map.lookup_of_mem hnd hall
  refine ⟨hof, hall, ?_, hlook⟩
  intro e he heq
  have h2 := Map.lookup_of_mem hnd (k := e.1) (v := e.2) he
  rw [heq, hlook] at h2
  have h3 : e.2 = op.name := (Option.some.inj h2).symm
  exact Prod.ext heq h3

/-- Witness for C20: the end marker of the second function visited has the
module-level id 2, listed with its name `A`. -/
theorem module_id_names_own_scope_witness :
    Map.lookup
        (ModuleScopeIdAllocation.construct
          [⟨0, [⟨1, "A", true⟩, ⟨2, "B", true⟩]⟩,
            ⟨1, [⟨3, "A", true⟩, ⟨4, "A", false⟩]⟩]).getScopeIdNames
        ((ModuleScopeIdAllocation.construct
          [⟨0, [⟨1, "A", true⟩, ⟨2, "B", true⟩]⟩,
            ⟨1, [⟨3, "A", true⟩, ⟨4, "A", false⟩]⟩]).getOpScopeId
          (fun _ => ⟨1, [⟨3, "A", true⟩, ⟨4, "A", false⟩]⟩) ⟨4, "A", false⟩) = some "A" :=
  (module_id_names_own_scope
    [⟨0, [⟨1, "A", true⟩, ⟨2, "B", true⟩]⟩, ⟨1, [⟨3, "A", true⟩, ⟨4, "A", false⟩]⟩]
    (fun _ => ⟨1, [⟨3, "A", true⟩, ⟨4, "A", false⟩]⟩) ⟨4, "A", false⟩ 0
    (by decide) (by decide)).2.2.2

/-! ## Open scopes along the scan -/

namespace ScopeIdAllocation

theorem contains_set {κ ν : Type} [DecidableEq κ] (m : Map κ ν) (k k' : κ) (v : ν) :
    Map.contains (Map.set m k v) k' = if k = k' then true else Map.contains m k' := by
  unfold Map.contains
  rw [Map.lookup_set]
  split <;> rfl

theorem contains_erase {κ ν : Type} [DecidableEq κ] (m : Map κ ν) (k k' : κ) :
    Map.contains (Map.erase m k) k' = if k = k' then false else Map.contains m k' := by
  unfold Map.contains
  rw [Map.lookup_erase]
  split <;> rfl

theorem active_visit_of_rejects {s : ScopeIdAllocation} {op : RecordOp}
    (h : rejects s op = true) : (visit s op).activeScopes = s.activeScopes := by
  unfold rejects at h
  unfold visit
  cases hst : op.isStart <;> cases hc : Map.contains s.activeScopes op.name <;>
    simp [hst, hc] at h ⊢

theorem active_visit_of_not_rejects {s : ScopeIdAllocation} {op : RecordOp}
    (h : rejects s op = false) (N : String) :
    Map.contains (visit s op).activeScopes N =
      if op.name = N then op.isStart else Map.contains s.activeScopes N := by
  unfold rejects at h
  unfold visit
  cases hst : op.isStart <;> cases hc : Map.contains s.activeScopes op.name <;>
    simp [hst, hc] at h ⊢
  · rw [contains_erase]
    by_cases hn : op.name = N <;> simp [hn]
  · rw [contains_set, (assign_frame s op.name).1]
    by_cases hn : op.name = N <;> simp [hn]

theorem diagnostics_foldl (l : List RecordOp) (s : ScopeIdAllocation) :
    ∃ extra, (l.foldl visit s).diagnostics = s.diagnostics ++ extra ∧
      (extra = [] ↔ clean s l = true) ∧ ∀ d ∈ extra, ∃ op, d = defectOf op := by
  induction l generalizing s with
  | nil => exact ⟨[], by simp, by simp [clean], by simp⟩
  | cons op rest ih =>
    obtain ⟨extra, h1, h2, h3⟩ := ih (visit s op)
    cases hr : rejects s op with
    | true =>
      refine ⟨defectOf op :: extra, ?_, by simp [clean, hr], ?_⟩
      · rw [List.foldl_cons, h1, (visit_of_rejects hr).2]
        simp
      · intro d hd
        rcases List.mem_cons.1 hd with e | e
        · exact ⟨op, e⟩
        · exact h3 d e
    | false =>
      refine ⟨extra, ?_, by simpa [clean, hr] using h2, h3⟩
      rw [List.foldl_cons, h1, (visit_of_not_rejects hr).2]

theorem flagsOf_cons (N : String) (op : RecordOp) (rest : List RecordOp) :
    flagsOf N (op :: rest) =
      if op.name = N then op.isStart :: flagsOf N rest else flagsOf N rest := by
  unfold flagsOf
  by_cases h : op.name = N <;> simp [List.filter_cons, h]

theorem track_visit {s : ScopeIdAllocation} {op : RecordOp} (h : rejects s op = false)
    (N : String) (rest : List RecordOp) :
    track (Map.contains s.activeScopes N) (flagsOf N (op :: rest)) =
      track (Map.contains (visit s op).activeScopes N) (flagsOf N rest) := by
  rw [flagsOf_cons, active_visit_of_not_rejects h]
  by_cases hn : op.name = N
  · subst hn
    unfold rejects at h
    cases hst : op.isStart <;> cases hc : Map.contains s.activeScopes op.name <;>
      simp [hst, hc] at h ⊢ <;> simp [track]
  · simp [hn]

theorem track_rejects {s : ScopeIdAllocation} {op : RecordOp} (h : rejects s op = true)
    (rest : List RecordOp) :
    track (Map.contains s.activeScopes op.name) (flagsOf op.name (op :: rest)) = none := by
  rw [flagsOf_cons, if_pos rfl]
  unfold rejects at h
  cases hst : op.isStart <;> cases hc : Map.contains s.activeScopes op.name <;>
    simp [hst, hc] at h ⊢ <;> simp [track]

theorem clean_iff_track (l : List RecordOp) (s : ScopeIdAllocation) :
    (clean s l = true ↔ ∀ N, track (Map.contains s.activeScopes N) (flagsOf N l) ≠ none) ∧
      (clean s l = true → ∀ N, track (Map.contains s.activeScopes N) (flagsOf N l) =
        some (Map.contains (l.foldl visit s).activeScopes N)) := by
  induction l generalizing s with
  | nil => simp [clean, flagsOf, track]
  | cons op rest ih =>
    cases hr : rejects s op with
    | true =>
      constructor
      · constructor
        · intro hc
          simp [clean, hr] at hc
        · intro hall
          exact absurd (track_rejects hr rest) (hall op.name)
      · intro hc
        simp [clean, hr] at hc
    | false =>
      obtain ⟨h1, h2⟩ := ih (visit s op)
      have hcl : clean s (op :: rest) = clean (visit s op) rest := by simp [clean, hr]
      constructor
      · rw [hcl, h1]
        constructor
        · intro hall N
          rw [track_visit hr]
          exact hall N
        · intro hall N
          rw [← track_visit hr]
          exact hall N
      · intro hc N
        rw [hcl] at hc
        rw [track_visit hr, List.foldl_cons]
        exact h2 hc N

theorem alternating_iff_track :
    ∀ fl : List Bool, alternating fl = true ↔ track false fl = some false
  | [] => by simp [alternating, track]
  | [true] => by simp [alternating, track]
  | false :: rest => by simp [alternating, track]
  | true :: true :: rest => by simp [alternating, track]
  | true :: false :: rest => by simpa [alternating, track] using alternating_iff_track rest

theorem eq_nil_iff_contains {ν : Type} (m : Map String ν) :
    m = [] ↔ ∀ N, Map.contains m N = false := by
  constructor
  · rintro rfl N
    rfl
  · intro h
    cases m with
    | nil => rfl
    | cons p rest =>
      have := h p.1
      simp [Map.contains, Map.lookup] at this

theorem unclosed_eq_nil_iff (funcOp : FuncOp) (s : ScopeIdAllocation) :
    unclosed funcOp s = [] ↔ s.activeScopes = [] := by
  unfold unclosed
  cases h : s.activeScopes with
  | nil => simp [Map.size]
  | cons p rest => simp [Map.size]

end ScopeIdAllocation

/-- C19: `run` emits no diagnostic exactly when, for every name, the markers
carrying that name read start, end, start, end, ..., from a start to an end.
Names are judged one by one: `start(A), start(B), end(A), end(B)` passes. -/
theorem run_clean_iff_alternating (funcOp : FuncOp) :
    ((ScopeIdAllocation.run funcOp).diagnostics = [] ↔
        ∀ N, ScopeIdAllocation.alternating (ScopeIdAllocation.flagsOf N funcOp.recordOps) = true) ∧
      (ScopeIdAllocation.run
        ⟨0, [⟨1, "A", true⟩, ⟨2, "B", true⟩, ⟨3, "A", false⟩, ⟨4, "B", false⟩]⟩).diagnostics
          = [] := by
  refine ⟨?_, by decide⟩
  obtain ⟨extra, h1, h2, _⟩ := ScopeIdAllocation.diagnostics_foldl funcOp.recordOps
    ScopeIdAllocation.empty
  obtain ⟨h3, h4⟩ := ScopeIdAllocation.clean_iff_track funcOp.recordOps ScopeIdAllocation.empty
  have hdiag : (ScopeIdAllocation.run funcOp).diagnostics = [] ↔
      extra = [] ∧ (ScopeIdAllocation.scan funcOp).activeScopes = [] := by
    show (ScopeIdAllocation.scan funcOp).diagnostics ++
      ScopeIdAllocation.unclosed funcOp (ScopeIdAllocation.scan funcOp) = [] ↔ _
    rw [List.append_eq_nil, ScopeIdAllocation.unclosed_eq_nil_iff]
    have : (ScopeIdAllocation.scan funcOp).diagnostics = extra := by
      simpa [ScopeIdAllocation.scan, ScopeIdAllocation.empty] using h1
    rw [this]
  rw [hdiag, h2]
  constructor
  · rintro ⟨hc, hact⟩ N
    rw [ScopeIdAllocation.alternating_iff_track]
    have e : ScopeIdAllocation.track false (ScopeIdAllocation.flagsOf N funcOp.recordOps) =
        some (Map.contains (ScopeIdAllocation.scan funcOp).activeScopes N) := h4 hc N
    rw [(ScopeIdAllocation.eq_nil_iff_contains _).1 hact N] at e
    exact e
  · intro hall
    have htr : ∀ N, ScopeIdAllocation.track false
        (ScopeIdAllocation.flagsOf N funcOp.recordOps) = some false :=
      fun N => (ScopeIdAllocation.alternating_iff_track _).1 (hall N)
    have hc : ScopeIdAllocation.clean ScopeIdAllocation.empty funcOp.recordOps = true := by
      rw [h3]
      intro N
      have := htr N
      show ScopeIdAllocation.track false _ ≠ none
      rw [this]
      simp
    refine ⟨hc, ?_⟩
    rw [ScopeIdAllocation.eq_nil_iff_contains]
    intro N
    have := h4 hc N
    have e : ScopeIdAllocation.track false (ScopeIdAllocation.flagsOf N funcOp.recordOps) =
        some (Map.contains (ScopeIdAllocation.scan funcOp).activeScopes N) := this
    rw [htr N] at e
    exact (Option.some.inj e).symm

/-! ## Scopes left open at the end of the scan -/

namespace ScopeIdAllocation

theorem keys_set {κ ν : Type} [DecidableEq κ] (m : Map κ ν) (k : κ) (v : ν) :
    Map.keys (Map.set m k v) = if k ∈ Map.keys m then Map.keys m else Map.keys m ++ [k] := by
  induction m with
  | nil => simp [Map.set, Map.keys]
  | cons p rest ih =>
    obtain ⟨k', v'⟩ := p
    simp only [Map.keys] at ih
    by_cases h : k' = k
    · subst h
      simp [Map.set, Map.keys]
    · have h' : ¬ k = k' := fun e => h e.symm
      by_cases hm : k ∈ List.map Prod.fst rest
      · rw [if_pos hm] at ih
        simp [Map.set, Map.keys, h, h', hm, ih]
      · rw [if_neg hm] at ih
        simp [Map.set, Map.keys, h, h', hm, ih]

theorem keys_erase_sublist {κ ν : Type} [DecidableEq κ] (m : Map κ ν) (k : κ) :
    (Map.keys (Map.erase m k)).Sublist (Map.keys m) := by
  induction m with
  | nil => simp [Map.erase, Map.keys]
  | cons p rest ih =>
    obtain ⟨k', v'⟩ := p
    simp only [Map.keys] at ih
    by_cases h : k' = k
    · simp only [Map.erase, h, if_true, Map.keys, List.map_cons]
      exact ih.trans (List.sublist_cons_self _ _)
    · simp only [Map.erase, h, if_false, Map.keys, List.map_cons]
      exact ih.cons₂ _

theorem active_nodup_visit {s : ScopeIdAllocation} (op : RecordOp)
    (hs : (Map.keys s.activeScopes).Nodup) : (Map.keys (visit s op).activeScopes).Nodup := by
  cases hr : rejects s op with
  | true => rw [active_visit_of_rejects hr]; exact hs
  | false =>
    unfold rejects at hr
    unfold visit
    cases hst : op.isStart <;> cases hc : Map.contains s.activeScopes op.name <;>
      simp [hst, hc] at hr ⊢
    · exact hs.sublist (keys_erase_sublist _ _)
    · rw [keys_set, (assign_frame s op.name).1]
      have hk : op.name ∉ Map.keys s.activeScopes :=
        (Map.lookup_eq_none_iff _ _).1 ((Map.contains_eq_false_iff _ _).1 hc)
      rw [if_neg hk]
      exact List.nodup_append.2 ⟨hs, List.nodup_singleton _, by
        intro a ha hb
        rw [List.mem_singleton] at hb
        exact hk (hb ▸ ha)⟩

theorem active_nodup_foldl (l : List RecordOp) {s : ScopeIdAllocation}
    (hs : (Map.keys s.activeScopes).Nodup) : (Map.keys (l.foldl visit s).activeScopes).Nodup := by
  induction l generalizing s with
  | nil => exact hs
  | cons op rest ih => exact ih (active_nodup_visit op hs)

theorem contains_iff_mem_keys {κ ν : Type} [DecidableEq κ] (m : Map κ ν) (k : κ) :
    Map.contains m k = true ↔ k ∈ Map.keys m := by
  rw [← not_iff_not, ← Map.lookup_eq_none_iff, Bool.not_eq_true, Map.contains_eq_false_iff]

theorem count_neverClosed (funcOp : FuncOp) (m : Map String Nat) (N : String) :
    (m.map (fun p => Diagnostic.neverClosed funcOp p.1)).count (Diagnostic.neverClosed funcOp N) =
      (Map.keys m).count N := by
  induction m with
  | nil => simp [Map.keys]
  | cons p rest ih =>
    simp only [Map.keys] at ih
    by_cases h : p.1 = N
    · simp [Map.keys, List.count_cons, h, ih]
    · simp [Map.keys, List.count_cons, h, ih]

theorem count_unclosed (funcOp : FuncOp) (s : ScopeIdAllocation) (N : String) :
    (unclosed funcOp s).count (Diagnostic.neverClosed funcOp N) =
      (Map.keys s.activeScopes).count N := by
  unfold unclosed
  split
  · exact count_neverClosed funcOp _ N
  · next h =>
    have : s.activeScopes = [] := by
      cases hm : s.activeScopes with
      | nil => rfl
      | cons p rest => simp [Map.size, hm] at h
    simp [this, Map.keys]

theorem scan_diagnostics_defects (funcOp : FuncOp) :
    ∀ d ∈ (scan funcOp).diagnostics, ∃ op, d = defectOf op := by
  obtain ⟨extra, h1, _, h3⟩ := diagnostics_foldl funcOp.recordOps empty
  intro d hd
  have : (scan funcOp).diagnostics = extra := by simpa [scan, empty] using h1
  rw [this] at hd
  exact h3 d hd

theorem defectOf_ne_neverClosed (op : RecordOp) (funcOp : FuncOp) (N : String) :
    defectOf op ≠ Diagnostic.neverClosed funcOp N := by
  unfold defectOf
  split <;> simp

theorem recordedOf_append (s : ScopeIdAllocation) (N : String) (l₁ l₂ : List RecordOp) :
    recordedOf s N (l₁ ++ l₂) = recordedOf s N l₁ ++ recordedOf s N l₂ := by
  simp [recordedOf]

theorem open_iff_last_recorded (l : List RecordOp) (hnd : l.Nodup) (N : String) :
    Map.contains (l.foldl visit empty).activeScopes N = true ↔
      ∃ op, (recordedOf (l.foldl visit empty) N l).getLast? = some op ∧ op.isStart = true := by
  induction l using List.reverseRecOn with
  | nil => simp [recordedOf, empty, Map.contains, Map.lookup]
  | append_singleton l x ih =>
    have hl : l.Nodup := (List.nodup_append.1 hnd).1
    have hx : x ∉ l := fun h => (List.nodup_append.1 hnd).2.2 h (List.mem_singleton_self _)
    have ih := ih hl
    have hfresh : Map.lookup (l.foldl visit empty).opToIdMap x = none :=
      (foldl_frame l (s := empty) hx).1
    rw [List.foldl_append, List.foldl_cons, List.foldl_nil, recordedOf_append]
    have hsame : recordedOf (visit (l.foldl visit empty) x) N l =
        recordedOf (l.foldl visit empty) N l := by
      unfold recordedOf
      apply List.filter_congr
      intro op hop
      have hne : x ≠ op := fun e => hx (e ▸ hop)
      simp only [Map.contains, (visit_frame (s := l.foldl visit empty) hne).1]
    rw [hsame]
    cases hr : rejects (l.foldl visit empty) x with
    | true =>
      have h1 : recordedOf (visit (l.foldl visit empty) x) N [x] = [] := by
        simp [recordedOf, (visit_of_rejects hr).1, Map.contains, hfresh]
      rw [h1, List.append_nil, active_visit_of_rejects hr]
      exact ih
    | false =>
      obtain ⟨⟨v, hv⟩, _⟩ := visit_of_not_rejects hr
      have hin : Map.contains (visit (l.foldl visit empty) x).opToIdMap x = true := by
        rw [hv, contains_set, if_pos rfl]
      rw [active_visit_of_not_rejects hr]
      by_cases hn : x.name = N
      · have h1 : recordedOf (visit (l.foldl visit empty) x) N [x] = [x] := by
          simp [recordedOf, hin, hn]
        rw [h1, List.getLast?_concat, if_pos hn]
        constructor
        · intro h
          exact ⟨x, rfl, h⟩
        · rintro ⟨op, hop, hst⟩
          rw [← Option.some.inj hop] at hst
          exact hst
      · have h1 : recordedOf (visit (l.foldl visit empty) x) N [x] = [] := by
          simp [recordedOf, hn]
        rw [h1, List.append_nil, if_neg hn]
        exact ih

end ScopeIdAllocation

/-- C16: after the scan `run` emits, at the function, exactly one "opened but
never closed" diagnostic for each name still active and no other diagnostic
that is not anchored at a marker; a name is still active exactly when the last
recorded marker carrying it is a start; such a name has an id and a recorded
start marker. For the single marker `start(A)` the one diagnostic is that of
the unclosed `A`, `A` has id 0 and the start is recorded. -/
theorem run_unclosed_reported (funcOp : FuncOp) (hnd : funcOp.recordOps.Nodup) :
    (∀ N, (ScopeIdAllocation.run funcOp).diagnostics.count (Diagnostic.neverClosed funcOp N) =
        if Map.contains (ScopeIdAllocation.run funcOp).activeScopes N = true then 1 else 0) ∧
      (∀ d ∈ (ScopeIdAllocation.run funcOp).diagnostics, d.recordAnchor = none →
        ∃ N, d = Diagnostic.neverClosed funcOp N ∧
          Map.contains (ScopeIdAllocation.run funcOp).activeScopes N = true) ∧
      (∀ N, Map.contains (ScopeIdAllocation.run funcOp).activeScopes N = true ↔
        ∃ op, (ScopeIdAllocation.recordedOf (ScopeIdAllocation.run funcOp) N
          funcOp.recordOps).getLast? = some op ∧ op.isStart = true) ∧
      (∀ N, Map.contains (ScopeIdAllocation.run funcOp).activeScopes N = true →
        (∃ i, Map.lookup (ScopeIdAllocation.run funcOp).nameToIdMap N = some i) ∧
          ∃ op ∈ funcOp.recordOps, op.isStart = true ∧ op.name = N ∧
            Map.contains (ScopeIdAllocation.run funcOp).opToIdMap op = true) ∧
      ∀ (loc a : Nat) (A : String),
        ScopeIdAllocation.run ⟨loc, [⟨a, A, true⟩]⟩ =
          ⟨[(A, 0)], [(A, 0)], 1, [(0, A)], [(⟨a, A, true⟩, 0)],
            [Diagnostic.neverClosed ⟨loc, [⟨a, A, true⟩]⟩ A]⟩ := by
  have hact : (Map.keys (ScopeIdAllocation.run funcOp).activeScopes).Nodup :=
    ScopeIdAllocation.active_nodup_foldl funcOp.recordOps
      (by simp [ScopeIdAllocation.empty, Map.keys])
  have hlast : ∀ N, Map.contains (ScopeIdAllocation.run funcOp).activeScopes N = true ↔
      ∃ op, (ScopeIdAllocation.recordedOf (ScopeIdAllocation.run funcOp) N
        funcOp.recordOps).getLast? = some op ∧ op.isStart = true :=
    fun N => ScopeIdAllocation.open_iff_last_recorded funcOp.recordOps hnd N
  refine ⟨?_, ?_, hlast, ?_, ?_⟩
  · intro N
    show ((ScopeIdAllocation.scan funcOp).diagnostics ++
      ScopeIdAllocation.unclosed funcOp (ScopeIdAllocation.scan funcOp)).count _ = _
    have h0 : (ScopeIdAllocation.scan funcOp).diagnostics.count
        (Diagnostic.neverClosed funcOp N) = 0 := by
      apply List.count_eq_zero_of_not_mem
      intro hmem
      obtain ⟨op, hop⟩ := ScopeIdAllocation.scan_diagnostics_defects funcOp _ hmem
      exact ScopeIdAllocation.defectOf_ne_neverClosed op funcOp N hop.symm
    rw [List.count_append, h0, Nat.zero_add, ScopeIdAllocation.count_unclosed]
    split
    · next h =>
      exact List.count_eq_one_of_mem hact ((ScopeIdAllocation.contains_iff_mem_keys _ _).1 h)
    · next h =>
      exact List.count_eq_zero_of_not_mem
        (fun hm => h ((ScopeIdAllocation.contains_iff_mem_keys _ _).2 hm))
  · intro d hd hanchor
    have hd2 : d ∈ (ScopeIdAllocation.scan funcOp).diagnostics ++
        ScopeIdAllocation.unclosed funcOp (ScopeIdAllocation.scan funcOp) := hd
    rcases List.mem_append.1 hd2 with h | h
    · obtain ⟨op, hop⟩ := ScopeIdAllocation.scan_diagnostics_defects funcOp d h
      rw [hop, ScopeIdAllocation.recordAnchor_defectOf] at hanchor
      cases hanchor
    · unfold ScopeIdAllocation.unclosed at h
      split at h
      · obtain ⟨p, hp, rfl⟩ := List.mem_map.1 h
        refine ⟨p.1, rfl, ?_⟩
        exact (ScopeIdAllocation.contains_iff_mem_keys _ _).2 (List.mem_map_of_mem Prod.fst hp)
      · simp at h
  · intro N hopen
    constructor
    · obtain ⟨i, hi⟩ := (Map.contains_eq_true_iff _ _).1 hopen
      exact ⟨i, (ScopeIdAllocation.inv_run funcOp).active N i hi⟩
    · obtain ⟨op, hop, hst⟩ := (hlast N).1 hopen
      have hmem := List.mem_of_mem_getLast? hop
      unfold ScopeIdAllocation.recordedOf at hmem
      rw [List.mem_filter] at hmem
      simp only [Bool.and_eq_true, decide_eq_true_eq] at hmem
      exact ⟨op, hmem.1, hst, hmem.2.2, hmem.2.1⟩
  · intro loc a A
    simp [ScopeIdAllocation.run, ScopeIdAllocation.scan, ScopeIdAllocation.visit,
      ScopeIdAllocation.assign, ScopeIdAllocation.unclosed, ScopeIdAllocation.empty,
      Map.contains, Map.lookup, Map.set, Map.lookupD, Map.size]

/-- Witness for C16 on `start(A), start(B), end(A)`: `B` is left open and is
reported once. -/
theorem run_unclosed_reported_witness :
    (ScopeIdAllocation.run
        ⟨0, [⟨1, "A", true⟩, ⟨2, "B", true⟩, ⟨3, "A", false⟩]⟩).diagnostics.count
      (Diagnostic.neverClosed ⟨0, [⟨1, "A", true⟩, ⟨2, "B", true⟩, ⟨3, "A", false⟩]⟩ "B") = 1 :=
  ((run_unclosed_reported ⟨0, [⟨1, "A", true⟩, ⟨2, "B", true⟩, ⟨3, "A", false⟩]⟩
    (by decide)).1 "B").trans (by decide)

/-! ## Walks made of complete cycles -/

namespace ScopeIdAllocation

theorem visit_cycle {s : ScopeIdAllocation} (hact : s.activeScopes = []) (N : String)
    (a b : Nat) :
    visit (visit s ⟨a, N, true⟩) ⟨b, N, false⟩ =
      { assign s N with
        opToIdMap := Map.set (Map.set s.opToIdMap ⟨a, N, true⟩
          (Map.lookupD (assign s N).nameToIdMap N)) ⟨b, N, false⟩
          (Map.lookupD (assign s N).nameToIdMap N)
        activeScopes := [] } := by
  obtain ⟨h1, h2, _⟩ := assign_frame s N
  have e1 : visit s ⟨a, N, true⟩ =
      { assign s N with
        opToIdMap := Map.set s.opToIdMap ⟨a, N, true⟩ (Map.lookupD (assign s N).nameToIdMap N)
        activeScopes := [(N, Map.lookupD (assign s N).nameToIdMap N)] } := by
    simp [visit, hact, h1, h2, Map.contains, Map.lookup, Map.set]
  rw [e1]
  simp [visit, Map.contains, Map.lookup, Map.erase, Map.lookupD]

theorem contains_opToIdMap_visit {s : ScopeIdAllocation} (x : RecordOp) {op : RecordOp}
    (h : Map.contains s.opToIdMap op = true) : Map.contains (visit s x).opToIdMap op = true := by
  cases hr : rejects s x with
  | true => rw [(visit_of_rejects hr).1]; exact h
  | false =>
    obtain ⟨⟨v, hv⟩, _⟩ := visit_of_not_rejects hr
    rw [hv, contains_set]
    split
    · rfl
    · exact h

theorem contains_opToIdMap_foldl (l : List RecordOp) {s : ScopeIdAllocation} {op : RecordOp}
    (h : Map.contains s.opToIdMap op = true) :
    Map.contains (l.foldl visit s).opToIdMap op = true := by
  induction l generalizing s with
  | nil => exact h
  | cons x rest ih => exact ih (contains_opToIdMap_visit x h)

theorem mem_cycles {cs : List (String × Nat × Nat)} {op : RecordOp} (h : op ∈ cycles cs) :
    ∃ c ∈ cs, op.name = c.1 := by
  induction cs with
  | nil => simp [cycles] at h
  | cons c rest ih =>
    obtain ⟨N, a, b⟩ := c
    simp only [cycles, List.mem_cons] at h
    rcases h with rfl | rfl | h
    · exact ⟨(N, a, b), List.mem_cons_self _ _, rfl⟩
    · exact ⟨(N, a, b), List.mem_cons_self _ _, rfl⟩
    · obtain ⟨c, hc, e⟩ := ih h
      exact ⟨c, List.mem_cons_of_mem _ hc, e⟩

theorem length_cycles (cs : List (String × Nat × Nat)) : (cycles cs).length = 2 * cs.length := by
  induction cs with
  | nil => rfl
  | cons c rest ih =>
    obtain ⟨N, a, b⟩ := c
    simp only [cycles, List.length_cons, ih]
    omega

theorem nodup_cycles {cs : List (String × Nat × Nat)} (hnd : (cs.map (fun c => c.1)).Nodup) :
    (cycles cs).Nodup := by
  induction cs with
  | nil => simp [cycles]
  | cons c rest ih =>
    obtain ⟨N, a, b⟩ := c
    simp only [List.map_cons, List.nodup_cons] at hnd
    have hnot : ∀ op ∈ cycles rest, op.name ≠ N := by
      intro op hop e
      obtain ⟨c, hc, hn⟩ := mem_cycles hop
      exact hnd.1 (List.mem_map.2 ⟨c, hc, by rw [← hn, e]⟩)
    simp only [cycles, List.nodup_cons, List.mem_cons]
    refine ⟨?_, ?_, ih hnd.2⟩
    · rintro (h | h)
      · simp at h
      · exact hnot _ h rfl
    · intro h
      exact hnot _ h rfl

theorem foldl_cycles_distinct (cs : List (String × Nat × Nat)) {s : ScopeIdAllocation}
    (hs : Inv s) (hact : s.activeScopes = []) (hnd : (cs.map (fun c => c.1)).Nodup)
    (hfresh : ∀ c ∈ cs, c.1 ∉ Map.keys s.nameToIdMap) :
    ((cycles cs).foldl visit s).activeScopes = [] ∧
      ((cycles cs).foldl visit s).diagnostics = s.diagnostics ∧
      ((cycles cs).foldl visit s).id = s.id + cs.length ∧
      (∀ i (h : i < cs.length),
        Map.lookup ((cycles cs).foldl visit s).nameToIdMap (cs.get ⟨i, h⟩).1 = some (s.id + i)) ∧
      ∀ op ∈ cycles cs, Map.contains ((cycles cs).foldl visit s).opToIdMap op = true := by
  induction cs generalizing s with
  | nil => simp [cycles, hact]
  | cons c rest ih =>
    obtain ⟨N, a, b⟩ := c
    simp only [List.map_cons, List.nodup_cons] at hnd
    have hN : N ∉ Map.keys s.nameToIdMap := hfresh (N, a, b) (List.mem_cons_self _ _)
    have hc : Map.contains s.nameToIdMap N = false := by
      rw [Map.contains_eq_false_iff, Map.lookup_eq_none_iff]
      exact hN
    have hinv2 : Inv (visit (visit s ⟨a, N, true⟩) ⟨b, N, false⟩) :=
      inv_visit _ (inv_visit _ hs)
    have hcyc := visit_cycle hact N a b
    rw [assign_of_not_contains hs hc] at hcyc
    have hact2 : (visit (visit s ⟨a, N, true⟩) ⟨b, N, false⟩).activeScopes = [] := by
      rw [hcyc]
    have hname2 : (visit (visit s ⟨a, N, true⟩) ⟨b, N, false⟩).nameToIdMap =
        s.nameToIdMap ++ [(N, s.id)] := by rw [hcyc]
    have hid2 : (visit (visit s ⟨a, N, true⟩) ⟨b, N, false⟩).id = s.id + 1 := by rw [hcyc]
    have hdiag2 : (visit (visit s ⟨a, N, true⟩) ⟨b, N, false⟩).diagnostics = s.diagnostics := by
      rw [hcyc]
    have hops2 : Map.contains (visit (visit s ⟨a, N, true⟩) ⟨b, N, false⟩).opToIdMap
          ⟨a, N, true⟩ = true ∧
        Map.contains (visit (visit s ⟨a, N, true⟩) ⟨b, N, false⟩).opToIdMap
          ⟨b, N, false⟩ = true := by
      rw [hcyc]
      simp [contains_set]
    have hfresh2 : ∀ c ∈ rest,
        c.1 ∉ Map.keys (visit (visit s ⟨a, N, true⟩) ⟨b, N, false⟩).nameToIdMap := by
      intro c hc'
      rw [hname2]
      simp only [Map.keys, List.map_append, List.map_cons, List.map_nil, List.mem_append,
        List.mem_singleton, not_or]
      refine ⟨hfresh c (List.mem_cons_of_mem _ hc'), ?_⟩
      intro e
      exact hnd.1 (List.mem_map.2 ⟨c, hc', e⟩)
    obtain ⟨r1, r2, r3, r4, r5⟩ := ih hinv2 hact2 hnd.2 hfresh2
    have hfold : (cycles ((N, a, b) :: rest)).foldl visit s =
        (cycles rest).foldl visit (visit (visit s ⟨a, N, true⟩) ⟨b, N, false⟩) := rfl
    rw [hfold]
    refine ⟨r1, by rw [r2, hdiag2], by rw [r3, hid2, List.length_cons]; omega, ?_, ?_⟩
    · intro i h
      cases i with
      | zero =>
        have h0 : Map.lookup (visit (visit s ⟨a, N, true⟩) ⟨b, N, false⟩).nameToIdMap N =
            some s.id := by
          rw [hname2, Map.lookup_append_right _ ((Map.lookup_eq_none_iff _ _).2 hN)]
          simp [Map.lookup]
        exact lookup_foldl_mono (cycles rest) hinv2 h0
      | succ j =>
        have hj : j < rest.length := by
          simp only [List.length_cons] at h
          omega
        have := r4 j hj
        rw [hid2] at this
        show Map.lookup _ (rest.get ⟨j, hj⟩).1 = some (s.id + (j + 1))
        rw [this]
        congr 1
        omega
    · intro op hop
      simp only [cycles, List.mem_cons] at hop
      rcases hop with rfl | rfl | hop
      · exact contains_opToIdMap_foldl _ hops2.1
      · exact contains_opToIdMap_foldl _ hops2.2
      · exact r5 op hop

end ScopeIdAllocation

namespace ScopeIdAllocation

theorem foldl_cycles_same (cs : List (String × Nat × Nat)) (A : String) {s : ScopeIdAllocation}
    {v : Nat} (hact : s.activeScopes = []) (hv : Map.lookup s.nameToIdMap A = some v)
    (hA : ∀ c ∈ cs, c.1 = A) :
    ((cycles cs).foldl visit s).activeScopes = [] ∧
      ((cycles cs).foldl visit s).diagnostics = s.diagnostics ∧
      ((cycles cs).foldl visit s).nameToIdMap = s.nameToIdMap ∧
      ((cycles cs).foldl visit s).idToNameMap = s.idToNameMap ∧
      (∀ op ∈ cycles cs, Map.lookup ((cycles cs).foldl visit s).opToIdMap op = some v) ∧
      ∀ op, Map.lookup s.opToIdMap op = some v →
        Map.lookup ((cycles cs).foldl visit s).opToIdMap op = some v := by
  induction cs generalizing s with
  | nil => simp [cycles, hact]
  | cons c rest ih =>
    obtain ⟨N, a, b⟩ := c
    have hN : N = A := hA (N, a, b) (List.mem_cons_self _ _)
    subst hN
    have hc : Map.contains s.nameToIdMap N = true := (Map.contains_eq_true_iff _ _).2 ⟨v, hv⟩
    have hcyc := visit_cycle hact N a b
    rw [assign_of_contains hc] at hcyc
    have hd : Map.lookupD s.nameToIdMap N = v := by simp [Map.lookupD, hv]
    rw [hd] at hcyc
    have hact2 : (visit (visit s ⟨a, N, true⟩) ⟨b, N, false⟩).activeScopes = [] := by
      rw [hcyc]
    have hname2 : (visit (visit s ⟨a, N, true⟩) ⟨b, N, false⟩).nameToIdMap = s.nameToIdMap := by
      rw [hcyc]
    have hidn2 : (visit (visit s ⟨a, N, true⟩) ⟨b, N, false⟩).idToNameMap = s.idToNameMap := by
      rw [hcyc]
    have hdiag2 : (visit (visit s ⟨a, N, true⟩) ⟨b, N, false⟩).diagnostics = s.diagnostics := by
      rw [hcyc]
    have hmono2 : ∀ op, Map.lookup s.opToIdMap op = some v →
        Map.lookup (visit (visit s ⟨a, N, true⟩) ⟨b, N, false⟩).opToIdMap op = some v := by
      intro op hop
      rw [hcyc]
      show Map.lookup (Map.set (Map.set s.opToIdMap _ v) _ v) op = some v
      rw [Map.lookup_set, Map.lookup_set]
      split
      · rfl
      · split
        · rfl
        · exact hop
    have hops2 : Map.lookup (visit (visit s ⟨a, N, true⟩) ⟨b, N, false⟩).opToIdMap
          ⟨a, N, true⟩ = some v ∧
        Map.lookup (visit (visit s ⟨a, N, true⟩) ⟨b, N, false⟩).opToIdMap
          ⟨b, N, false⟩ = some v := by
      rw [hcyc]
      constructor
      · show Map.lookup (Map.set (Map.set s.opToIdMap _ v) _ v) _ = some v
        rw [Map.lookup_set, Map.lookup_set]
        simp
      · show Map.lookup (Map.set (Map.set s.opToIdMap _ v) _ v) _ = some v
        rw [Map.lookup_set]
        simp
    obtain ⟨r1, r2, r3, r4, r5, r6⟩ := ih hact2 (by rw [hname2]; exact hv)
      (fun c hc' => hA c (List.mem_cons_of_mem _ hc'))
    have hfold : (cycles ((N, a, b) :: rest)).foldl visit s =
        (cycles rest).foldl visit (visit (visit s ⟨a, N, true⟩) ⟨b, N, false⟩) := rfl
    rw [hfold]
    refine ⟨r1, by rw [r2, hdiag2], by rw [r3, hname2], by rw [r4, hidn2], ?_, ?_⟩
    · intro op hop
      simp only [cycles, List.mem_cons] at hop
      rcases hop with rfl | rfl | hop
      · exact r6 _ hops2.1
      · exact r6 _ hops2.2
      · exact r5 op hop
    · intro op hop
      exact r6 op (hmono2 op hop)

theorem size_of_clean_scan (funcOp : FuncOp) (hnd : funcOp.recordOps.Nodup)
    (hd : (scan funcOp).diagnostics = []) :
    Map.size (scan funcOp).opToIdMap = funcOp.recordOps.length := by
  have h := foldl_count funcOp.recordOps (s := empty) hnd (by intro x _; rfl)
  have h' : Map.size (scan funcOp).opToIdMap + (atRecordOps (scan funcOp).diagnostics).length =
      Map.size empty.opToIdMap + (atRecordOps empty.diagnostics).length +
        funcOp.recordOps.length := h
  rw [hd] at h'
  simpa [empty, Map.size, atRecordOps] using h'

theorem run_of_closed_scan {funcOp : FuncOp} (hact : (scan funcOp).activeScopes = []) :
    run funcOp = scan funcOp := by
  show ({ scan funcOp with
    diagnostics := (scan funcOp).diagnostics ++ unclosed funcOp (scan funcOp) } :
      ScopeIdAllocation) = scan funcOp
  rw [(unclosed_eq_nil_iff funcOp (scan funcOp)).2 hact, List.append_nil]

end ScopeIdAllocation

/-- C17: for pairwise distinct names `N1..Nk`, the walk `start(N1), end(N1),
..., start(Nk), end(Nk)` gives `numScopes = k`, the id `i-1` to `Ni`, no
diagnostic, and an entry of the instruction-to-id map for each of its `2k`
instructions. -/
theorem run_cycles_of_distinct_names (loc : Nat) (cs : List (String × Nat × Nat))
    (hnd : (cs.map (fun c => c.1)).Nodup) :
    (ScopeIdAllocation.run ⟨loc, ScopeIdAllocation.cycles cs⟩).getNumScopes = cs.length ∧
      (∀ i (h : i < cs.length),
        Map.lookup (ScopeIdAllocation.run ⟨loc, ScopeIdAllocation.cycles cs⟩).nameToIdMap
          (cs.get ⟨i, h⟩).1 = some i) ∧
      (ScopeIdAllocation.run ⟨loc, ScopeIdAllocation.cycles cs⟩).diagnostics = [] ∧
      (∀ op ∈ ScopeIdAllocation.cycles cs,
        Map.contains (ScopeIdAllocation.run ⟨loc, ScopeIdAllocation.cycles cs⟩).opToIdMap op
          = true) ∧
      Map.size (ScopeIdAllocation.run ⟨loc, ScopeIdAllocation.cycles cs⟩).opToIdMap =
        2 * cs.length := by
  obtain ⟨r1, r2, r3, r4, r5⟩ := ScopeIdAllocation.foldl_cycles_distinct cs
    ScopeIdAllocation.inv_empty rfl hnd (by intro c _; simp [ScopeIdAllocation.empty, Map.keys])
  have hact : (ScopeIdAllocation.scan ⟨loc, ScopeIdAllocation.cycles cs⟩).activeScopes = [] := r1
  have hrun := ScopeIdAllocation.run_of_closed_scan hact
  have hdiag : (ScopeIdAllocation.scan ⟨loc, ScopeIdAllocation.cycles cs⟩).diagnostics = [] := r2
  rw [hrun]
  refine ⟨?_, ?_, hdiag, r5, ?_⟩
  · have hlen := ScopeIdAllocation.length_nameToIdMap
      (ScopeIdAllocation.inv_scan ⟨loc, ScopeIdAllocation.cycles cs⟩)
    have hid : (ScopeIdAllocation.scan ⟨loc, ScopeIdAllocation.cycles cs⟩).id =
        ScopeIdAllocation.empty.id + cs.length := r3
    unfold ScopeIdAllocation.getNumScopes Map.size
    rw [hlen, hid]
    simp [ScopeIdAllocation.empty]
  · intro i h
    have := r4 i h
    simpa [ScopeIdAllocation.empty] using this
  · have := ScopeIdAllocation.size_of_clean_scan
      ⟨loc, ScopeIdAllocation.cycles cs⟩ (ScopeIdAllocation.nodup_cycles hnd) hdiag
    rw [this]
    exact ScopeIdAllocation.length_cycles cs

/-- Witness for C17: `start(A), end(A), start(B), end(B)` gives two scopes. -/
theorem run_cycles_of_distinct_names_witness :
    (ScopeIdAllocation.run
      ⟨0, ScopeIdAllocation.cycles [("A", 1, 2), ("B", 3, 4)]⟩).getNumScopes = 2 :=
  (run_cycles_of_distinct_names 0 [("A", 1, 2), ("B", 3, 4)] (by decide)).1

/-- C18: `k ≥ 1` cycles `start(A), end(A)` of one name, made of distinct
instructions, give `A` the single id 0, no diagnostic, and an entry with id 0
for each of the `2k` instructions. -/
theorem run_cycles_of_one_name (loc : Nat) (A : String) (cs : List (String × Nat × Nat))
    (hne : cs ≠ []) (hA : ∀ c ∈ cs, c.1 = A) (hnd : (ScopeIdAllocation.cycles cs).Nodup) :
    (ScopeIdAllocation.run ⟨loc, ScopeIdAllocation.cycles cs⟩).getNumScopes = 1 ∧
      (ScopeIdAllocation.run ⟨loc, ScopeIdAllocation.cycles cs⟩).nameToIdMap = [(A, 0)] ∧
      (ScopeIdAllocation.run ⟨loc, ScopeIdAllocation.cycles cs⟩).idToNameMap = [(0, A)] ∧
      (ScopeIdAllocation.run ⟨loc, ScopeIdAllocation.cycles cs⟩).diagnostics = [] ∧
      (∀ op ∈ ScopeIdAllocation.cycles cs,
        Map.lookup (ScopeIdAllocation.run ⟨loc, ScopeIdAllocation.cycles cs⟩).opToIdMap op
          = some 0) ∧
      Map.size (ScopeIdAllocation.run ⟨loc, ScopeIdAllocation.cycles cs⟩).opToIdMap =
        2 * cs.length := by
  cases cs with
  | nil => exact absurd rfl hne
  | cons c rest =>
    obtain ⟨N, a, b⟩ := c
    have hN : N = A := hA (N, a, b) (List.mem_cons_self _ _)
    subst hN
    have hcyc := ScopeIdAllocation.visit_cycle (s := ScopeIdAllocation.empty) rfl N a b
    have hs1 : ScopeIdAllocation.visit (ScopeIdAllocation.visit ScopeIdAllocation.empty
        ⟨a, N, true⟩) ⟨b, N, false⟩ =
        ⟨[(N, 0)], [], 1, [(0, N)],
          Map.set (Map.set [] ⟨a, N, true⟩ 0) ⟨b, N, false⟩ 0, []⟩ := by
      rw [hcyc]
      simp [ScopeIdAllocation.assign, ScopeIdAllocation.empty, Map.contains, Map.lookup, Map.set,
        Map.lookupD]
    have hscan : ScopeIdAllocation.scan ⟨loc, ScopeIdAllocation.cycles ((N, a, b) :: rest)⟩ =
        (ScopeIdAllocation.cycles rest).foldl ScopeIdAllocation.visit
          (ScopeIdAllocation.visit (ScopeIdAllocation.visit ScopeIdAllocation.empty
            ⟨a, N, true⟩) ⟨b, N, false⟩) := rfl
    obtain ⟨r1, r2, r3, r4, r5, r6⟩ := ScopeIdAllocation.foldl_cycles_same rest N
      (s := ScopeIdAllocation.visit (ScopeIdAllocation.visit ScopeIdAllocation.empty
        ⟨a, N, true⟩) ⟨b, N, false⟩) (v := 0) (by rw [hs1]) (by rw [hs1]; simp [Map.lookup])
      (fun c hc => hA c (List.mem_cons_of_mem _ hc))
    rw [← hscan] at r1 r2 r3 r4 r5 r6
    have hrun := ScopeIdAllocation.run_of_closed_scan r1
    have hdiag : (ScopeIdAllocation.scan
        ⟨loc, ScopeIdAllocation.cycles ((N, a, b) :: rest)⟩).diagnostics = [] := by
      rw [r2, hs1]
    have hname : (ScopeIdAllocation.scan
        ⟨loc, ScopeIdAllocation.cycles ((N, a, b) :: rest)⟩).nameToIdMap = [(N, 0)] := by
      rw [r3, hs1]
    have hidn : (ScopeIdAllocation.scan
        ⟨loc, ScopeIdAllocation.cycles ((N, a, b) :: rest)⟩).idToNameMap = [(0, N)] := by
      rw [r4, hs1]
    rw [hrun]
    refine ⟨?_, hname, hidn, hdiag, ?_, ?_⟩
    · unfold ScopeIdAllocation.getNumScopes
      rw [hname]
      rfl
    · intro op hop
      simp only [ScopeIdAllocation.cycles, List.mem_cons] at hop
      rcases hop with rfl | rfl | hop
      · apply r6
        rw [hs1]
        show Map.lookup (Map.set (Map.set [] _ 0) _ 0) _ = some 0
        rw [Map.lookup_set, Map.lookup_set]
        simp
      · apply r6
        rw [hs1]
        show Map.lookup (Map.set (Map.set [] _ 0) _ 0) _ = some 0
        rw [Map.lookup_set]
        simp
      · exact r5 op hop
    · have := ScopeIdAllocation.size_of_clean_scan
        ⟨loc, ScopeIdAllocation.cycles ((N, a, b) :: rest)⟩ hnd hdiag
      rw [this]
      exact ScopeIdAllocation.length_cycles _

/-- Witness for C18: `start(A), end(A), start(A), end(A)` records four
instructions. -/
theorem run_cycles_of_one_name_witness :
    Map.size (ScopeIdAllocation.run
      ⟨0, ScopeIdAllocation.cycles [("A", 1, 2), ("A", 3, 4)]⟩).opToIdMap = 2 * 2 :=
  (run_cycles_of_one_name 0 "A" [("A", 1, 2), ("A", 3, 4)] (by decide) (by decide)
    (by decide)).2.2.2.2.2
